import Mathlib

/-!
Verification of the bytecode-resynthesis core of `paddle-symbolic-trace`
(`sot/opcode_translator/executor/pycode_generator.py`,
`sot/opcode_translator/executor/tracker.py`, `sot/utils/utils.py`),
as a shallow embedding in Lean 4.

Version-conditional behaviour (`sys.version_info` tests in the source) is
embedded as an explicit `PyVersion` parameter: `py38` is the oldest target
revision (`< (3, 10)`), `py310` the middle one, `py311` the newest.
-/

namespace Sot

/-- The three target runtime revisions the generator distinguishes
(`sys.version_info` tests in `pycode_generator.py`). -/
inductive PyVersion where
  | py38 : PyVersion
  | py310 : PyVersion
  | py311 : PyVersion
deriving DecidableEq, Repr

/-- An instruction as consumed by `assemble`: opcode byte, opname (used for
the cache-size lookup), optional operand and optional source line.
Jump information is irrelevant to assembly and omitted here. -/
structure AInstr where
  opcode : Nat
  opname : String
  arg : Option Nat
  starts_line : Option Int
deriving DecidableEq, Repr

/-- The static per-opcode cache-size table
(`instruction_utils/opcode_info.py`, `PYOPCODE_CACHE_SIZE`). -/
def PYOPCODE_CACHE_SIZE (opname : String) : Nat :=
  if opname = "BINARY_SUBSCR" then 4
  else if opname = "STORE_SUBSCR" then 1
  else if opname = "UNPACK_SEQUENCE" then 1
  else if opname = "STORE_ATTR" then 4
  else if opname = "LOAD_ATTR" then 4
  else if opname = "COMPARE_OP" then 2
  else if opname = "LOAD_GLOBAL" then 5
  else if opname = "BINARY_OP" then 1
  else if opname = "LOAD_METHOD" then 10
  else if opname = "PRECALL" then 1
  else if opname = "CALL" then 4
  else 0

/-- `get_instruction_size` of `pycode_generator.py`: `2 * (cache_size + 1)`
where the cache size is looked up only on the newest revision. -/
def get_instruction_size (v : PyVersion) (instr : AInstr) : Nat :=
  2 * ((if v = PyVersion.py311 then PYOPCODE_CACHE_SIZE instr.opname else 0) + 1)

/-- `to_byte` of `pycode_generator.py`: converts a negative number to an
unsigned byte by adding 256. -/
def to_byte (num : Int) : Int :=
  if num < 0 then num + 256 else num

/-- The body of `calc_lnotab`'s `while line_offset or byte_offset` loop
(oldest-revision delta table).  Each iteration clamps the line delta to
`[-128, 127]` and the byte delta to `[0, 255]`, emits the pair (line delta
through `to_byte`) and subtracts the emitted steps.  The loop is embedded
with explicit fuel; `calc_lnotab` below supplies fuel that is provably
sufficient whenever the byte offset is nonnegative (which `assemble`
guarantees, since the code cursor only moves forward). -/
def lnotabLoop : Nat → Int → Int → List Int
  | 0, _, _ => []
  | fuel + 1, line_offset, byte_offset =>
    if line_offset = 0 ∧ byte_offset = 0 then []
    else
      let line_offset_step := min (max line_offset (-128)) 127
      let byte_offset_step := min (max byte_offset 0) 255
      byte_offset_step :: to_byte line_offset_step ::
        lnotabLoop fuel (line_offset - line_offset_step)
          (byte_offset - byte_offset_step)

/-- `calc_lnotab` of `pycode_generator.py` (oldest revision): emits the
delta pairs for the transition from cursor `(cur_lineno, cur_bytecode)` to
`(starts_line, code_length)`. -/
def calc_lnotab (cur_lineno : Int) (cur_bytecode : Nat) (starts_line : Int)
    (code_length : Nat) : List Int :=
  lnotabLoop ((starts_line - cur_lineno).natAbs + code_length + 1)
    (starts_line - cur_lineno) ((code_length : Int) - (cur_bytecode : Int))

/-- The body of `calc_linetable_py310`'s loop (middle revision): same
delta-splitting as `lnotabLoop` but with clamps `[-127, 127]` and
`[0, 254]`. -/
def linetable310Loop : Nat → Int → Int → List Int
  | 0, _, _ => []
  | fuel + 1, line_offset, byte_offset =>
    if line_offset = 0 ∧ byte_offset = 0 then []
    else
      let line_offset_step := min (max line_offset (-127)) 127
      let byte_offset_step := min (max byte_offset 0) 254
      byte_offset_step :: to_byte line_offset_step ::
        linetable310Loop fuel (line_offset - line_offset_step)
          (byte_offset - byte_offset_step)

/-- `_encode_varint` of `pycode_generator.py`: little-endian 6-bit groups,
continuation flag `0x40` on every byte but the last. -/
def encode_varint (num : Nat) : List Nat :=
  if h : 0x40 ≤ num then
    (num % 0x40 + 0x40) :: encode_varint (num / 0x40)
  else
    [num]
decreasing_by
  exact Nat.div_lt_self (Nat.lt_of_lt_of_le (by norm_num) h) (by norm_num)

/-- `_encode_svarint` of `pycode_generator.py`: zig-zag transform
(low bit = sign, remaining bits = magnitude) followed by `_encode_varint`. -/
def encode_svarint (num : Int) : List Nat :=
  encode_varint (if num < 0 then ((-num) * 2 + 1).toNat else (num * 2).toNat)

/-- `_encode_bytecode_to_entries_py311` of `pycode_generator.py`: an entry
covers at most 8 code units (header `0b1_1101_000 + (run - 1)` followed by
the zig-zag varint of the line delta); longer runs are split into chunks
of 8. -/
def encodeEntriesPy311 (line_offset : Int) (byte_offset : Nat) : List Nat :=
  if byte_offset = 0 then []
  else if h : byte_offset ≤ 8 then
    (0xE8 + (byte_offset - 1)) :: encode_svarint line_offset
  else
    encodeEntriesPy311 line_offset 8 ++
      encodeEntriesPy311 line_offset (byte_offset - 8)
decreasing_by
  · omega
  · omega

/-- Cursor state threaded through `create_linetable_calculator`:
`cur_lineno`, `cur_bytecode`, and the lazily-carried `line_offset`
used only by the middle revision. -/
structure LineState where
  cur_lineno : Int
  cur_bytecode : Nat
  line_offset : Int
deriving DecidableEq, Repr

/-- `update_cursor` of `pycode_generator.py`: records the current code
length and, when a source line is present, the current line. -/
def update_cursor (ls : LineState) (starts_line : Option Int)
    (code_length : Nat) : LineState :=
  { ls with
    cur_bytecode := code_length
    cur_lineno := starts_line.getD ls.cur_lineno }

/-- `calc_linetable_py311`: line delta from the cursor (0 when the line is
absent), byte delta counted in 2-byte code units. -/
def calc_linetable_py311 (ls : LineState) (starts_line : Option Int)
    (code_length : Nat) : List Nat :=
  encodeEntriesPy311
    ((starts_line.map (fun l => l - ls.cur_lineno)).getD 0)
    ((code_length - ls.cur_bytecode) / 2)

/-- Revision dispatch of `create_linetable_calculator`: returns the bytes
emitted for one transition together with the updated calculator-internal
state (only the middle revision mutates `line_offset` inside the
calculator itself; `update_cursor` is applied separately by `assemble`).
For the two delta-table revisions the loop's caller guarantees a present
source line, so the `Option.getD 0` branch is never taken there. -/
def calcLinetable (v : PyVersion) (ls : LineState) (starts_line : Option Int)
    (code_length : Nat) : List Int × LineState :=
  match v with
  | PyVersion.py38 =>
    (calc_lnotab ls.cur_lineno ls.cur_bytecode (starts_line.getD 0) code_length, ls)
  | PyVersion.py310 =>
    let byte_offset : Int := (code_length : Int) - (ls.cur_bytecode : Int)
    (linetable310Loop (ls.line_offset.natAbs + code_length + 1) ls.line_offset byte_offset,
     { ls with line_offset := starts_line.getD 0 - ls.cur_lineno })
  | PyVersion.py311 =>
    ((calc_linetable_py311 ls starts_line code_length).map (fun b => (b : Int)), ls)

/-- One iteration of `assemble`'s main loop: emit the line-table bytes for
this instruction when required, then append the opcode byte, the operand
byte (`arg & 0xFF`, 0 when absent) and the zero-filled cache padding. -/
def assembleStep (v : PyVersion) (st : List Nat × List Int × LineState)
    (instr : AInstr) : List Nat × List Int × LineState :=
  let code := st.1
  let ltab := st.2.1
  let ls := st.2.2
  let upd :=
    if instr.starts_line.isSome ∨ v = PyVersion.py311 then
      let c := calcLinetable v ls instr.starts_line code.length
      (ltab ++ c.1, update_cursor c.2 instr.starts_line code.length)
    else (ltab, ls)
  (code ++ instr.opcode :: (instr.arg.getD 0) % 256 ::
     List.replicate (get_instruction_size v instr - 2) 0,
   upd.1, upd.2)

/-- `assemble` of `pycode_generator.py`: lowers the instruction list to
the flat code stream and the revision-specific line table (with the
end hooks of the two newer revisions). -/
def assemble (v : PyVersion) (instructions : List AInstr) (firstlineno : Int) :
    List Nat × List Int :=
  let st := instructions.foldl (assembleStep v) ([], [], ⟨firstlineno, 0, 0⟩)
  let code := st.1
  let ltab := st.2.1
  let ls := st.2.2
  match v with
  | PyVersion.py311 => (code, ltab ++ (calcLinetable v ls none code.length).1)
  | PyVersion.py310 => (code, ltab ++ (calcLinetable v ls (some 0) code.length).1)
  | PyVersion.py38 => (code, ltab)

/-! ### Decoding the oldest-revision delta table

The conceptual decoder for the `(byte delta, line delta)` table, following
the reading convention referenced by the source
(`lnotab_notes.txt`): walk the pairs keeping a byte address and a line
cursor; a line-delta byte `≥ 128` decodes as `value - 256`. -/

/-- Group a flat delta table into `(byte delta, line delta)` pairs. -/
def lnotabPairs : List Int → List (Int × Int)
  | b :: l :: rest => (b, l) :: lnotabPairs rest
  | _ => []

/-- Decode one stored line-delta byte back to its signed value. -/
def decodeLineDelta (dl : Int) : Int :=
  if 128 ≤ dl then dl - 256 else dl

/-- Sum of the byte deltas of a pair list. -/
def pairsByteSum (ps : List (Int × Int)) : Int :=
  (ps.map Prod.fst).sum

/-- Sum of the decoded line deltas of a pair list. -/
def pairsLineSum (ps : List (Int × Int)) : Int :=
  (ps.map (fun p => decodeLineDelta p.2)).sum

/-- The line number in effect at byte offset `target`, per the delta-table
reading convention: advance while the next pair does not move the address
past the target. -/
def lineAtPairs : List (Int × Int) → Int → Int → Int → Int
  | [], _, line, _ => line
  | (db, dl) :: rest, addr, line, target =>
    if target < addr + db then line
    else lineAtPairs rest (addr + db) (line + decodeLineDelta dl) target

/-- The decoded source line at byte offset `target` of a flat delta table
starting from `firstlineno`. -/
def lnotab_line_at (firstlineno : Int) (table : List Int) (target : Int) : Int :=
  lineAtPairs (lnotabPairs table) 0 firstlineno target

theorem decodeLineDelta_to_byte {l : Int} (h1 : -128 ≤ l) (h2 : l ≤ 127) :
    decodeLineDelta (to_byte l) = l := by
  simp only [decodeLineDelta, to_byte]
  split_ifs <;> omega

/-- Soundness of one `calc_lnotab` loop run, in pair form: with
nonnegative byte offset and sufficient fuel, the emitted pairs have byte
deltas clamped to `[0, 255]` and decoded line deltas clamped to
`[-128, 127]`, the deltas sum to the true transition, no `(0, 0)` pair is
emitted, and the flat list has even length. -/
theorem lnotabLoop_sound :
    ∀ (fuel : Nat) (lo bo : Int), 0 ≤ bo → lo.natAbs + bo.toNat < fuel →
      pairsByteSum (lnotabPairs (lnotabLoop fuel lo bo)) = bo ∧
      pairsLineSum (lnotabPairs (lnotabLoop fuel lo bo)) = lo ∧
      (∀ p ∈ lnotabPairs (lnotabLoop fuel lo bo),
        0 ≤ p.1 ∧ p.1 ≤ 255 ∧ -128 ≤ decodeLineDelta p.2 ∧
        decodeLineDelta p.2 ≤ 127 ∧ ¬(p.1 = 0 ∧ decodeLineDelta p.2 = 0)) ∧
      Even (lnotabLoop fuel lo bo).length := by
  intro fuel
  induction fuel with
  | zero => intro lo bo _ hf; omega
  | succ n ih =>
    intro lo bo hbo hf
    by_cases hz : lo = 0 ∧ bo = 0
    · simp [lnotabLoop, hz, lnotabPairs, pairsByteSum, pairsLineSum]
    · have hunf : lnotabLoop (n + 1) lo bo =
        (min (max bo 0) 255) :: to_byte (min (max lo (-128)) 127) ::
          lnotabLoop n (lo - min (max lo (-128)) 127) (bo - min (max bo 0) 255) := by
        rw [lnotabLoop]
        simp [hz]
      set ls := min (max lo (-128)) 127 with hls
      set bs := min (max bo 0) 255 with hbs
      have hls1 : -128 ≤ ls := by omega
      have hls2 : ls ≤ 127 := by omega
      have hbo' : 0 ≤ bo - bs := by omega
      have hdec : (lo - ls).natAbs + (bo - bs).toNat < n := by omega
      obtain ⟨ih1, ih2, ih3, ih4⟩ := ih (lo - ls) (bo - bs) hbo' hdec
      rw [hunf]
      simp only [lnotabPairs, pairsByteSum, pairsLineSum, List.map_cons,
        List.sum_cons, List.mem_cons, List.length_cons]
      simp only [pairsByteSum] at ih1
      simp only [pairsLineSum] at ih2
      refine ⟨by omega, ?_, ?_, ?_⟩
      · rw [decodeLineDelta_to_byte hls1 hls2]
        omega
      · rintro p (rfl | hp)
        · simp only [decodeLineDelta_to_byte hls1 hls2]
          refine ⟨by omega, by omega, hls1, hls2, ?_⟩
          omega
        · exact ih3 p hp
      · obtain ⟨k, hk⟩ := ih4
        exact ⟨k + 1, by omega⟩

theorem pairsByteSum_nonneg {ps : List (Int × Int)} (h : ∀ p ∈ ps, 0 ≤ p.1) :
    0 ≤ pairsByteSum ps := by
  induction ps with
  | nil => simp [pairsByteSum]
  | cons p rest ih =>
    simp only [pairsByteSum, List.map_cons, List.sum_cons]
    have h1 := h p (by simp)
    have h2 := ih (fun q hq => h q (by simp [hq]))
    simp only [pairsByteSum] at h2
    omega

/-- When the target offset lies at or past the whole pair list, decoding
consumes every pair and lands on the total line delta. -/
theorem lineAtPairs_consume_all :
    ∀ (ps : List (Int × Int)) (addr line target : Int),
      (∀ p ∈ ps, 0 ≤ p.1) → addr + pairsByteSum ps ≤ target →
      lineAtPairs ps addr line target = line + pairsLineSum ps := by
  intro ps
  induction ps with
  | nil => intro addr line target _ _; simp [lineAtPairs, pairsLineSum]
  | cons p rest ih =>
    intro addr line target hpos hle
    obtain ⟨db, dl⟩ := p
    have hrest : 0 ≤ pairsByteSum rest :=
      pairsByteSum_nonneg (fun q hq => hpos q (by simp [hq]))
    simp only [pairsByteSum, List.map_cons, List.sum_cons] at hle
    have hnb : ¬ target < addr + db := by
      simp only [pairsByteSum] at hrest
      omega
    simp only [lineAtPairs, hnb, if_false]
    rw [ih (addr + db) (line + decodeLineDelta dl) target
      (fun q hq => hpos q (by simp [hq])) (by simp only [pairsByteSum] at *; omega)]
    simp only [pairsLineSum, List.map_cons, List.sum_cons]
    ring

/-- Appending further pairs does not change decoding at a target that the
first appended pair already jumps past. -/
theorem lineAtPairs_append_break :
    ∀ (ps : List (Int × Int)) (db dl : Int) (ext : List (Int × Int))
      (addr line target : Int),
      target < addr + pairsByteSum ps + db →
      lineAtPairs (ps ++ (db, dl) :: ext) addr line target =
        lineAtPairs ps addr line target := by
  intro ps
  induction ps with
  | nil =>
    intro db dl ext addr line target h
    simp only [pairsByteSum, List.map_nil, List.sum_nil, add_zero] at h
    simp [lineAtPairs, h]
  | cons p rest ih =>
    intro db dl ext addr line target h
    obtain ⟨b, l⟩ := p
    simp only [List.cons_append, lineAtPairs]
    by_cases hb : target < addr + b
    · simp [hb]
    · simp only [hb, if_false]
      apply ih
      simp only [pairsByteSum, List.map_cons, List.sum_cons] at h
      simp only [pairsByteSum]
      omega

theorem lnotabPairs_append :
    ∀ (t ext : List Int), Even t.length →
      lnotabPairs (t ++ ext) = lnotabPairs t ++ lnotabPairs ext := by
  intro t
  induction t using lnotabPairs.induct with
  | case1 b l rest ih =>
    intro ext he
    simp only [List.length_cons] at he
    have : Even rest.length := by
      rcases he with ⟨k, hk⟩; exact ⟨k - 1, by omega⟩
    simp only [List.cons_append, lnotabPairs, List.append_eq, ih ext this]
  | case2 t h =>
    intro ext he
    match t with
    | [] => simp [lnotabPairs]
    | [x] => simp at he
    | a :: b :: rest => exact absurd rfl (h a b rest)

/-- Placeholder instruction used as the `List.getD` default. -/
def defaultAInstr : AInstr := ⟨0, "", none, none⟩

/-- Invariant carried along `assemble`'s loop on the oldest revision,
relating the already-processed instructions `done` to the accumulated
`(code, linetable, cursor)` state. -/
structure Lnotab38Inv (fl : Int) (done : List AInstr)
    (st : List Nat × List Int × LineState) : Prop where
  code_len : st.1.length = 2 * done.length
  tab_even : Even st.2.1.length
  b_nonneg : ∀ p ∈ lnotabPairs st.2.1, 0 ≤ p.1
  b_sum : pairsByteSum (lnotabPairs st.2.1) = (st.2.2.cur_bytecode : Int)
  l_sum : fl + pairsLineSum (lnotabPairs st.2.1) = st.2.2.cur_lineno
  cur_le : st.2.2.cur_bytecode ≤ 2 * done.length
  cur_src : st.2.2.cur_bytecode = 0 ∨
    ∃ k, k < done.length ∧ st.2.2.cur_bytecode = 2 * k
  emit_le : ∀ k, k < done.length →
    ((done.getD k defaultAInstr).starts_line).isSome →
    2 * k ≤ st.2.2.cur_bytecode
  decode_ok : ∀ k, k < done.length → ∀ l : Int,
    (done.getD k defaultAInstr).starts_line = some l →
    lineAtPairs (lnotabPairs st.2.1) 0 fl (2 * k) = l

theorem Lnotab38Inv_init (fl : Int) :
    Lnotab38Inv fl [] ([], [], ⟨fl, 0, 0⟩) := by
  refine ⟨by simp, by simp, by simp [lnotabPairs], by simp [lnotabPairs, pairsByteSum],
    by simp [lnotabPairs, pairsLineSum], by simp, Or.inl rfl, ?_, ?_⟩
  · intro k hk; simp at hk
  · intro k hk; simp at hk

theorem Lnotab38Inv_step {fl : Int} {done : List AInstr}
    {st : List Nat × List Int × LineState} (inv : Lnotab38Inv fl done st)
    (instr : AInstr) :
    Lnotab38Inv fl (done ++ [instr]) (assembleStep PyVersion.py38 st instr) := by
  obtain ⟨code, ltab, ls⟩ := st
  obtain ⟨clen, teven, bpos, bsum, lsum, cle, csrc, emle, deok⟩ := inv
  simp only at clen teven bpos bsum lsum cle csrc emle deok
  have hlen' : (done ++ [instr]).length = done.length + 1 := by simp
  have hgetLast : (done ++ [instr]).getD done.length defaultAInstr = instr := by
    rw [List.getD_append_right _ _ _ _ (le_refl _), Nat.sub_self]
    rfl
  have hgetOld : ∀ k, k < done.length →
      (done ++ [instr]).getD k defaultAInstr = done.getD k defaultAInstr := by
    intro k hk
    exact List.getD_append _ _ _ _ hk
  by_cases hsl : instr.starts_line.isSome
  · -- the instruction carries a source line: a delta group is emitted
    obtain ⟨lv, hlv⟩ := Option.isSome_iff_exists.mp hsl
    have hstep : assembleStep PyVersion.py38 (code, ltab, ls) instr =
        (code ++ instr.opcode :: (instr.arg.getD 0) % 256 :: [],
         ltab ++ calc_lnotab ls.cur_lineno ls.cur_bytecode lv code.length,
         ⟨lv, code.length, ls.line_offset⟩) := by
      simp only [assembleStep, hsl, true_or, if_true, calcLinetable, hlv,
        update_cursor, Option.getD_some, get_instruction_size,
        PyVersion.py38, Option.some.injEq]
      simp [hlv]
    rw [hstep]
    -- facts about the freshly emitted group
    have hble : ls.cur_bytecode ≤ code.length := by omega
    set lo : Int := lv - ls.cur_lineno with hlo
    set boI : Int := (code.length : Int) - (ls.cur_bytecode : Int) with hboI
    have hboI0 : 0 ≤ boI := by omega
    have hfuel : lo.natAbs + boI.toNat < lo.natAbs + code.length + 1 := by omega
    obtain ⟨extb, extl, extp, exte⟩ :=
      lnotabLoop_sound (lo.natAbs + code.length + 1) lo boI hboI0 hfuel
    have hcalc : calc_lnotab ls.cur_lineno ls.cur_bytecode lv code.length =
        lnotabLoop (lo.natAbs + code.length + 1) lo boI := rfl
    set ext := lnotabLoop (lo.natAbs + code.length + 1) lo boI with hextdef
    have hsplit : lnotabPairs (ltab ++ ext) = lnotabPairs ltab ++ lnotabPairs ext :=
      lnotabPairs_append ltab ext teven
    have hpos' : ∀ p ∈ lnotabPairs (ltab ++ ext), 0 ≤ p.1 := by
      rw [hsplit]
      intro p hp
      rcases List.mem_append.mp hp with h | h
      · exact bpos p h
      · exact (extp p h).1
    have hbsum' : pairsByteSum (lnotabPairs (ltab ++ ext)) = (code.length : Int) := by
      rw [hsplit]
      simp only [pairsByteSum, List.map_append, List.sum_append]
      simp only [pairsByteSum] at bsum extb
      omega
    have hlsum' : fl + pairsLineSum (lnotabPairs (ltab ++ ext)) = lv := by
      rw [hsplit]
      simp only [pairsLineSum, List.map_append, List.sum_append]
      simp only [pairsLineSum] at lsum extl
      omega
    refine ⟨?_, ?_, ?_, ?_, ?_, ?_, ?_, ?_, ?_⟩
    · simp only [List.length_append, List.length_cons, List.length_nil, hlen']
      omega
    · show Even (ltab ++ ext).length
      simp only [List.length_append]
      obtain ⟨a, ha⟩ := teven; obtain ⟨b, hb⟩ := exte
      exact ⟨a + b, by omega⟩
    · exact hpos'
    · exact hbsum'
    · exact hlsum'
    · show code.length ≤ 2 * (done ++ [instr]).length
      rw [hlen']
      omega
    · right
      refine ⟨done.length, by simp, ?_⟩
      show code.length = 2 * done.length
      omega
    · intro k hk hks
      rw [hlen'] at hk
      show 2 * k ≤ code.length
      omega
    · intro k hk l hl
      rw [hlen'] at hk
      show lineAtPairs (lnotabPairs (ltab ++ ext)) 0 fl (2 * k) = l
      by_cases hkd : k < done.length
      · -- an earlier instruction: appended pairs are jumped past
        rw [hgetOld k hkd] at hl
        have hold := deok k hkd l hl
        have hkle : 2 * k ≤ ls.cur_bytecode :=
          emle k hkd (by rw [hl]; rfl)
        by_cases hz : lo = 0 ∧ boI = 0
        · have hnil : ext = [] := by
            rw [hextdef, lnotabLoop]
            simp [hz.1, hz.2]
          rw [hnil]
          simpa using hold
        · -- the group is nonempty and starts with byte delta `min (max boI 0) 255`
          have hunf : ext = (min (max boI 0) 255) ::
              to_byte (min (max lo (-128)) 127) ::
              lnotabLoop (lo.natAbs + code.length)
                (lo - min (max lo (-128)) 127) (boI - min (max boI 0) 255) := by
            rw [hextdef, lnotabLoop]
            simp [hz]
          rw [hsplit, hunf]
          simp only [lnotabPairs]
          rw [lineAtPairs_append_break]
          · exact hold
          · -- target < cur_bytecode + first byte delta
            rw [bsum]
            by_cases hb1 : 1 ≤ boI
            · omega
            · -- byte offset 0 would force an empty prefix of emitters
              exfalso
              rcases csrc with h0 | ⟨k0, hk0, hcur⟩ <;> omega
      · -- the new instruction itself: all pairs are consumed
        have hkeq : k = done.length := by omega
        subst hkeq
        rw [hgetLast, hlv] at hl
        injection hl with hl
        rw [lineAtPairs_consume_all _ _ _ _ hpos' (by rw [hbsum']; omega)]
        omega
  · -- no source line: the table and cursor are untouched
    have hstep : assembleStep PyVersion.py38 (code, ltab, ls) instr =
        (code ++ instr.opcode :: (instr.arg.getD 0) % 256 :: [], ltab, ls) := by
      simp only [assembleStep, hsl, get_instruction_size, PyVersion.py38]
      simp
    rw [hstep]
    refine ⟨?_, teven, bpos, bsum, lsum, ?_, ?_, ?_, ?_⟩
    · simp only [List.length_append, List.length_cons, List.length_nil, hlen']
      omega
    · show ls.cur_bytecode ≤ 2 * (done ++ [instr]).length
      rw [hlen']
      omega
    · rcases csrc with h | ⟨k, hk, hc⟩
      · exact Or.inl h
      · exact Or.inr ⟨k, by rw [hlen']; omega, hc⟩
    · intro k hk hks
      rw [hlen'] at hk
      by_cases hkd : k < done.length
      · rw [hgetOld k hkd] at hks
        exact emle k hkd hks
      · have hkeq : k = done.length := by omega
        subst hkeq
        rw [hgetLast] at hks
        exact absurd hks (by simp [hsl])
    · intro k hk l hl
      rw [hlen'] at hk
      by_cases hkd : k < done.length
      · rw [hgetOld k hkd] at hl
        exact deok k hkd l hl
      · have hkeq : k = done.length := by omega
        subst hkeq
        rw [hgetLast] at hl
        rw [hl] at hsl
        simp at hsl

theorem Lnotab38Inv_fold :
    ∀ (instrs done : List AInstr) (fl : Int) (st : List Nat × List Int × LineState),
      Lnotab38Inv fl done st →
      Lnotab38Inv fl (done ++ instrs) (instrs.foldl (assembleStep PyVersion.py38) st) := by
  intro instrs
  induction instrs with
  | nil => intro done fl st h; simpa using h
  | cons i rest ih =>
    intro done fl st h
    have h2 := ih (done ++ [i]) fl _ (Lnotab38Inv_step h i)
    simpa using h2

/-- C2. The oldest-revision debug table: `calc_lnotab` emits
`(byte delta, line delta)` pairs with the byte delta clamped to
`[0, 255]` and the (decoded) line delta clamped to `[-128, 127]`,
splitting an oversized transition into several pairs whose deltas sum to
the true transition and never emitting a `(0, 0)` pair; consequently
decoding the full table produced by `assemble` on the oldest revision
recovers, at every instruction's byte offset, the exact source line the
instruction was synthesized with. -/
theorem calc_lnotab_correct :
    (∀ (cur_lineno : Int) (cur_bytecode : Nat) (starts_line : Int)
       (code_length : Nat), cur_bytecode ≤ code_length →
      pairsByteSum (lnotabPairs
          (calc_lnotab cur_lineno cur_bytecode starts_line code_length)) =
        (code_length : Int) - (cur_bytecode : Int) ∧
      pairsLineSum (lnotabPairs
          (calc_lnotab cur_lineno cur_bytecode starts_line code_length)) =
        starts_line - cur_lineno ∧
      (∀ p ∈ lnotabPairs
          (calc_lnotab cur_lineno cur_bytecode starts_line code_length),
        0 ≤ p.1 ∧ p.1 ≤ 255 ∧ -128 ≤ decodeLineDelta p.2 ∧
        decodeLineDelta p.2 ≤ 127 ∧ ¬(p.1 = 0 ∧ decodeLineDelta p.2 = 0))) ∧
    (∀ (instrs : List AInstr) (firstlineno : Int) (k : Nat),
      k < instrs.length → ∀ l : Int,
      (instrs.getD k defaultAInstr).starts_line = some l →
      lnotab_line_at firstlineno
        (assemble PyVersion.py38 instrs firstlineno).2 (2 * k) = l) := by
  constructor
  · intro cl cb sl clen hle
    have h0 : (0 : Int) ≤ (clen : Int) - (cb : Int) := by omega
    have hf : (sl - cl).natAbs + ((clen : Int) - (cb : Int)).toNat <
        (sl - cl).natAbs + clen + 1 := by omega
    obtain ⟨h1, h2, h3, _⟩ := lnotabLoop_sound _ _ _ h0 hf
    exact ⟨h1, h2, h3⟩
  · intro instrs fl k hk l hl
    have hinv := Lnotab38Inv_fold instrs [] fl ([], [], ⟨fl, 0, 0⟩)
      (Lnotab38Inv_init fl)
    simp only [List.nil_append] at hinv
    have heq : (assemble PyVersion.py38 instrs fl).2 =
        (instrs.foldl (assembleStep PyVersion.py38) ([], [], ⟨fl, 0, 0⟩)).2.1 := rfl
    rw [heq]
    exact hinv.decode_ok k hk l hl

/-- Witness for `calc_lnotab_correct`: a transition of 600 lines over 300
bytes is split into clamped pairs, and the table assembled for a concrete
two-line unit decodes each instruction's line. -/
theorem calc_lnotab_correct_witness :
    pairsByteSum (lnotabPairs (calc_lnotab 1 0 601 300)) = 300 ∧
    lnotab_line_at 1
      (assemble PyVersion.py38
        [⟨124, "LOAD_FAST", some 0, some 3⟩, ⟨83, "RETURN_VALUE", none, some 7⟩]
        1).2 2 = 7 := by
  constructor
  · exact (calc_lnotab_correct.1 1 0 601 300 (by decide)).1
  · exact calc_lnotab_correct.2
      [⟨124, "LOAD_FAST", some 0, some 3⟩, ⟨83, "RETURN_VALUE", none, some 7⟩]
      1 1 (by decide) 7 (by decide)

/-! ### The code stream (claim C4) -/

/-- The bytes one instruction contributes to the code stream. -/
def instrBytes (v : PyVersion) (i : AInstr) : List Nat :=
  i.opcode :: (i.arg.getD 0) % 256 ::
    List.replicate (get_instruction_size v i - 2) 0

theorem assembleStep_code (v : PyVersion) (code : List Nat) (ltab : List Int)
    (ls : LineState) (i : AInstr) :
    (assembleStep v (code, ltab, ls) i).1 = code ++ instrBytes v i := rfl

theorem assemble_code_foldl (v : PyVersion) :
    ∀ (instrs : List AInstr) (code : List Nat) (ltab : List Int) (ls : LineState),
      (instrs.foldl (assembleStep v) (code, ltab, ls)).1 =
        code ++ instrs.flatMap (instrBytes v) := by
  intro instrs
  induction instrs with
  | nil => intro code ltab ls; simp
  | cons i rest ih =>
    intro code ltab ls
    have hs : assembleStep v (code, ltab, ls) i =
        (code ++ instrBytes v i,
         (assembleStep v (code, ltab, ls) i).2.1,
         (assembleStep v (code, ltab, ls) i).2.2) := rfl
    simp only [List.foldl_cons]
    rw [hs, ih]
    simp [List.flatMap_cons, List.append_assoc]

/-- The four-instruction end-to-end example of the specification:
`LOAD local "x"; LOAD const 1; ADD; RETURN`, all on the unit's first
source line. -/
def exampleInstrs : List AInstr :=
  [⟨124, "LOAD_FAST", some 0, some 1⟩,
   ⟨100, "LOAD_CONST", some 0, none⟩,
   ⟨23, "BINARY_ADD", none, none⟩,
   ⟨83, "RETURN_VALUE", none, none⟩]

/-- Counterexample to C4 as stated: on the oldest revision the assembled
bytecode of the four-instruction example is exactly `2 × 4 = 8` bytes and
the assembler appends nothing after it — there is no terminator (the line
table is also empty for this single-line unit), so the claimed
"`2 × 4` bytes plus terminator" length is wrong. -/
theorem assemble_py38_no_terminator :
    (assemble PyVersion.py38 exampleInstrs 1).1.length = 8 ∧
    (assemble PyVersion.py38 exampleInstrs 1).2 = [] := by
  constructor <;> rfl

/-- C4 (amended: no terminator on the oldest revision). Each instruction
contributes its opcode byte, one operand byte equal to the operand modulo
256 (0 when absent) and one zero-filled 2-byte word per unit of the
per-opcode cache-size table entry; on the two older revisions the cache
padding is empty, so the bytecode is exactly 2 bytes per instruction —
in particular 8 bytes, with nothing appended, for the 4-instruction
example. -/
theorem assemble_bytecode_layout :
    (∀ (v : PyVersion) (instrs : List AInstr) (fl : Int),
      (assemble v instrs fl).1 = instrs.flatMap (instrBytes v) ∧
      ∀ i : AInstr, instrBytes v i =
        i.opcode :: (i.arg.getD 0) % 256 ::
          List.replicate
            (2 * (if v = PyVersion.py311 then PYOPCODE_CACHE_SIZE i.opname else 0))
            0) ∧
    (∀ (v : PyVersion) (instrs : List AInstr) (fl : Int), v ≠ PyVersion.py311 →
      (assemble v instrs fl).1 =
        instrs.flatMap (fun i => [i.opcode, (i.arg.getD 0) % 256]) ∧
      (assemble v instrs fl).1.length = 2 * instrs.length) ∧
    (assemble PyVersion.py38 exampleInstrs 1).1.length = 8 ∧
    (assemble PyVersion.py38 exampleInstrs 1).2 = [] := by
  have hcode : ∀ (v : PyVersion) (instrs : List AInstr) (fl : Int),
      (assemble v instrs fl).1 = instrs.flatMap (instrBytes v) := by
    intro v instrs fl
    have h := assemble_code_foldl v instrs [] [] ⟨fl, 0, 0⟩
    simp only [List.nil_append] at h
    cases v <;> exact h
  refine ⟨?_, ?_, assemble_py38_no_terminator.1, assemble_py38_no_terminator.2⟩
  · intro v instrs fl
    refine ⟨hcode v instrs fl, ?_⟩
    intro i
    simp only [instrBytes, get_instruction_size]
    have harith :
        2 * ((if v = PyVersion.py311 then PYOPCODE_CACHE_SIZE i.opname else 0) + 1) - 2 =
        2 * (if v = PyVersion.py311 then PYOPCODE_CACHE_SIZE i.opname else 0) := by
      omega
    rw [harith]
  · intro v instrs fl hv
    have hz : ∀ i : AInstr, instrBytes v i = [i.opcode, (i.arg.getD 0) % 256] := by
      intro i
      simp only [instrBytes, get_instruction_size, if_neg hv]
      norm_num
    constructor
    · rw [hcode v instrs fl]
      congr 1
      funext i
      exact hz i
    · rw [hcode v instrs fl, List.length_flatMap]
      have : List.map (List.length ∘ instrBytes v) instrs =
          List.map (fun _ => 2) instrs := by
        apply List.map_congr_left
        intro i _
        simp [Function.comp, hz i]
      rw [this]
      simp [List.map_const, mul_comm]

/-- Witness for `assemble_bytecode_layout`: the no-padding branch applied
to the concrete example on the oldest revision. -/
theorem assemble_bytecode_layout_witness :
    (assemble PyVersion.py38 exampleInstrs 1).1 =
      exampleInstrs.flatMap (fun i => [i.opcode, (i.arg.getD 0) % 256]) ∧
    (assemble PyVersion.py38 exampleInstrs 1).1.length = 2 * exampleInstrs.length := by
  exact (assemble_bytecode_layout.2.1 PyVersion.py38 exampleInstrs 1 (by decide))

/-! ### The newest-revision location table (claim C3) -/

/-- The unsigned zig-zag image of a signed line delta, as computed inside
`_encode_svarint`: low bit = sign, remaining bits = magnitude. -/
def zigzag (z : Int) : Nat :=
  if z < 0 then ((-z) * 2 + 1).toNat else (z * 2).toNat

theorem encode_svarint_eq_varint (z : Int) :
    encode_svarint z = encode_varint (zigzag z) := rfl

/-- Inverse of the zig-zag transform. -/
def unzigzag (u : Nat) : Int :=
  if u % 2 = 1 then -((u / 2 : Nat) : Int) else ((u / 2 : Nat) : Int)

theorem unzigzag_zigzag (z : Int) : unzigzag (zigzag z) = z := by
  simp only [zigzag, unzigzag]
  split_ifs <;> omega

/-- Decoder for the variable-length unsigned integers: consume 6-bit
groups, little-endian, while the continuation flag `0x40` is set; a byte
`≥ 0x80` is malformed. -/
def decodeVarint : List Nat → Option (Nat × List Nat)
  | [] => none
  | b :: rest =>
    if b < 0x40 then some (b, rest)
    else if b < 0x80 then
      match decodeVarint rest with
      | some (v, rest2) => some ((b - 0x40) + v * 0x40, rest2)
      | none => none
    else none

theorem decode_encode_varint (n : Nat) :
    ∀ tail : List Nat, decodeVarint (encode_varint n ++ tail) = some (n, tail) := by
  induction n using Nat.strong_induction_on with
  | _ n ih =>
    intro tail
    rw [encode_varint]
    split_ifs with h
    · have hd : n / 0x40 < n :=
        Nat.div_lt_self (by omega) (by norm_num)
      have hih := ih (n / 0x40) hd tail
      have hb1 : ¬ (n % 0x40 + 0x40 < 0x40) := by omega
      have hb2 : n % 0x40 + 0x40 < 0x80 := by
        have := Nat.mod_lt n (show 0 < 0x40 by norm_num)
        omega
      simp only [List.cons_append, decodeVarint, hb1, if_false, hb2, if_true]
      simp only [List.append_eq] at hih ⊢
      rw [hih]
      show some (n % 0x40 + 0x40 - 0x40 + n / 0x40 * 0x40, tail) = some (n, tail)
      have : n % 0x40 + 0x40 - 0x40 + n / 0x40 * 0x40 = n := by
        have := Nat.mod_add_div n 0x40
        omega
      rw [this]
    · have hb : n < 0x40 := by omega
      simp [decodeVarint, hb]

theorem encode_varint_ne_nil (n : Nat) : encode_varint n ≠ [] := by
  rw [encode_varint]
  split_ifs <;> simp

/-- Shape of an encoded varint: every byte except the last carries the
continuation flag `0x40` (and stays below `0x80`), and the final byte has
the flag clear. -/
theorem encode_varint_shape (n : Nat) :
    (∀ b ∈ (encode_varint n).dropLast, 0x40 ≤ b ∧ b < 0x80) ∧
    ∃ last, (encode_varint n).getLast? = some last ∧ last < 0x40 := by
  induction n using Nat.strong_induction_on with
  | _ n ih =>
    rw [encode_varint]
    split_ifs with h
    · have hd : n / 0x40 < n :=
        Nat.div_lt_self (by omega) (by norm_num)
      obtain ⟨ih1, last, ihl, ihlt⟩ := ih (n / 0x40) hd
      obtain ⟨r, rest, hr⟩ :
          ∃ r rest, encode_varint (n / 0x40) = r :: rest := by
        cases hh : encode_varint (n / 0x40) with
        | nil => exact absurd hh (encode_varint_ne_nil _)
        | cons r rest => exact ⟨r, rest, rfl⟩
      rw [hr] at ih1 ihl ⊢
      constructor
      · intro b hb
        rw [List.dropLast_cons₂] at hb
        rcases List.mem_cons.mp hb with rfl | hb
        · have := Nat.mod_lt n (show 0 < 0x40 by norm_num)
          omega
        · exact ih1 b hb
      · exact ⟨last, by rw [List.getLast?_cons_cons]; exact ihl, ihlt⟩
    · refine ⟨by simp, n, by simp, by omega⟩

/-- Decoder for the newest-revision location entries: each entry is a
header byte in `[0xE8, 0xEF]` (run length = low three bits + 1) followed
by a zig-zag varint line delta. -/
def decodeEntriesAux : Nat → List Nat → Option (List (Nat × Int))
  | _, [] => some []
  | 0, _ :: _ => none
  | fuel + 1, h :: rest =>
    if 0xE8 ≤ h ∧ h ≤ 0xEF then
      match decodeVarint rest with
      | some (u, rest2) =>
        match decodeEntriesAux fuel rest2 with
        | some es => some ((h - 0xE8 + 1, unzigzag u) :: es)
        | none => none
      | none => none
    else none

def decodeEntries (l : List Nat) : Option (List (Nat × Int)) :=
  decodeEntriesAux l.length l

theorem decodeEntriesAux_mono :
    ∀ (f f' : Nat) (l : List Nat) (r : List (Nat × Int)),
      decodeEntriesAux f l = some r → f ≤ f' → decodeEntriesAux f' l = some r := by
  intro f
  induction f with
  | zero =>
    intro f' l r h _
    match l with
    | [] =>
      simp only [decodeEntriesAux] at h
      cases f' <;> simpa [decodeEntriesAux] using h
    | x :: xs => simp [decodeEntriesAux] at h
  | succ f ih =>
    intro f' l r h hle
    match l with
    | [] =>
      simp only [decodeEntriesAux] at h
      cases f' <;> simpa [decodeEntriesAux] using h
    | x :: xs =>
      obtain ⟨f'', rfl⟩ : ∃ f'', f' = f'' + 1 := ⟨f' - 1, by omega⟩
      simp only [decodeEntriesAux] at h ⊢
      by_cases hh : 0xE8 ≤ x ∧ x ≤ 0xEF
      · rw [if_pos hh] at h ⊢
        cases hv : decodeVarint xs with
        | none => simp [hv] at h
        | some p =>
          obtain ⟨u, rest2⟩ := p
          simp only [hv] at h ⊢
          cases he : decodeEntriesAux f rest2 with
          | none => simp [he] at h
          | some es =>
            simp only [he] at h
            simp only [ih f'' rest2 es he (by omega)]
            exact h
      · rw [if_neg hh] at h ⊢
        exact h

/-- The run lengths of the entries emitted for `byte_offset` code units:
chunks of 8 with a final chunk of at most 8. -/
def locChunks (byte_offset : Nat) : List Nat :=
  if byte_offset = 0 then []
  else if byte_offset ≤ 8 then [byte_offset]
  else 8 :: locChunks (byte_offset - 8)
decreasing_by
  omega

theorem locChunks_sum (bo : Nat) : (locChunks bo).sum = bo := by
  induction bo using Nat.strong_induction_on with
  | _ bo ih =>
    rw [locChunks]
    split_ifs with h1 h2
    · simp [h1]
    · simp
    · have := ih (bo - 8) (by omega)
      simp only [List.sum_cons, this]
      omega

theorem locChunks_le (bo : Nat) : ∀ c ∈ locChunks bo, 1 ≤ c ∧ c ≤ 8 := by
  induction bo using Nat.strong_induction_on with
  | _ bo ih =>
    rw [locChunks]
    split_ifs with h1 h2
    · simp
    · intro c hc
      simp only [List.mem_singleton] at hc
      subst hc
      omega
    · intro c hc
      rcases List.mem_cons.mp hc with rfl | hc
      · omega
      · exact ih (bo - 8) (by omega) c hc

/-- Decoding composes over an encoded group followed by arbitrary
well-decoding bytes. -/
theorem decodeEntriesAux_encode (lo : Int) :
    ∀ (bo : Nat) (tail : List Nat) (fuel : Nat) (r : List (Nat × Int)),
      decodeEntriesAux fuel tail = some r →
      decodeEntriesAux (fuel + (locChunks bo).length)
          (encodeEntriesPy311 lo bo ++ tail) =
        some ((locChunks bo).map (fun c => (c, lo)) ++ r) := by
  intro bo
  induction bo using Nat.strong_induction_on with
  | _ bo ih =>
    intro tail fuel r htail
    by_cases h1 : bo = 0
    · subst h1
      rw [encodeEntriesPy311, locChunks]
      simpa using htail
    · by_cases h2 : bo ≤ 8
      · have henc : encodeEntriesPy311 lo bo =
            (0xE8 + (bo - 1)) :: encode_svarint lo := by
          rw [encodeEntriesPy311]
          simp [h1, h2]
        have hch : locChunks bo = [bo] := by
          rw [locChunks]
          simp [h1, h2]
        rw [henc, hch]
        show decodeEntriesAux (fuel + 1)
            ((0xE8 + (bo - 1)) :: (encode_svarint lo ++ tail)) =
          some ((bo, lo) :: r)
        simp only [decodeEntriesAux]
        have hhd : 0xE8 ≤ 0xE8 + (bo - 1) ∧ 0xE8 + (bo - 1) ≤ 0xEF := by omega
        rw [if_pos hhd]
        rw [encode_svarint_eq_varint]
        simp only [decode_encode_varint (zigzag lo) tail]
        simp only [htail]
        rw [unzigzag_zigzag]
        have : 0xE8 + (bo - 1) - 0xE8 + 1 = bo := by omega
        rw [this]
      · have henc : encodeEntriesPy311 lo bo =
            encodeEntriesPy311 lo 8 ++ encodeEntriesPy311 lo (bo - 8) := by
          rw [encodeEntriesPy311]
          simp [h1, h2]
        have hch : locChunks bo = 8 :: locChunks (bo - 8) := by
          rw [locChunks]
          simp [h1, h2]
        have hrec := ih (bo - 8) (by omega) tail fuel r htail
        have h8 := ih 8 (by omega) (encodeEntriesPy311 lo (bo - 8) ++ tail)
          (fuel + (locChunks (bo - 8)).length) _ hrec
        rw [henc, hch]
        rw [List.append_assoc]
        have hfuel : fuel + (locChunks (bo - 8)).length + (locChunks 8).length =
            fuel + (8 :: locChunks (bo - 8)).length := by
          have h8c : locChunks 8 = [8] := by rw [locChunks]; simp
          rw [h8c]
          simp only [List.length_cons, List.length_nil]
          omega
        rw [hfuel] at h8
        rw [h8]
        have h8c : locChunks 8 = [8] := by rw [locChunks]; simp
        simp [h8c]

/-- Every encoded group has at least as many bytes as entries. -/
theorem encodeEntriesPy311_length (lo : Int) :
    ∀ bo : Nat, (locChunks bo).length ≤ (encodeEntriesPy311 lo bo).length := by
  intro bo
  induction bo using Nat.strong_induction_on with
  | _ bo ih =>
    rw [locChunks, encodeEntriesPy311]
    split_ifs with h1 h2
    · simp
    · simp
    · simp only [List.length_cons, List.length_append]
      have := ih (bo - 8) (by omega)
      have h8 : 1 ≤ (encodeEntriesPy311 lo 8).length := by
        have he : encodeEntriesPy311 lo 8 = (0xE8 + (8 - 1)) :: encode_svarint lo := by
          rw [encodeEntriesPy311]
          norm_num
        rw [he]
        simp
      omega

/-- C3. The newest-revision location format: every emitted entry covers a
run of at most 8 code units (longer runs split into chunks of 8), its
header byte is `0b1_1101_000 + (run - 1)`, and the line delta is the
zig-zag varint of the signed offset — little-endian 6-bit groups with the
continuation bit `0x40` set on all bytes but the final one.  Decoding the
emitted group recovers exactly the chunked runs, each carrying the line
delta. -/
theorem encode_entries_py311_correct :
    ∀ (lo : Int) (bo : Nat),
      decodeEntries (encodeEntriesPy311 lo bo) =
        some ((locChunks bo).map (fun c => (c, lo))) ∧
      (locChunks bo).sum = bo ∧
      (∀ c ∈ locChunks bo, 1 ≤ c ∧ c ≤ 8) ∧
      (0 < bo → bo ≤ 8 →
        (encodeEntriesPy311 lo bo).head? = some (0xE8 + (bo - 1))) ∧
      decodeVarint (encode_svarint lo) = some (zigzag lo, []) ∧
      unzigzag (zigzag lo) = lo ∧
      (zigzag lo = if lo < 0 then 2 * lo.natAbs + 1 else 2 * lo.natAbs) ∧
      (∀ b ∈ (encode_svarint lo).dropLast, 0x40 ≤ b ∧ b < 0x80) ∧
      (∃ last, (encode_svarint lo).getLast? = some last ∧ last < 0x40) := by
  intro lo bo
  have hdec : decodeEntries (encodeEntriesPy311 lo bo) =
      some ((locChunks bo).map (fun c => (c, lo))) := by
    have h0 : decodeEntriesAux 0 ([] : List Nat) = some [] := rfl
    have h := decodeEntriesAux_encode lo bo [] 0 [] h0
    simp only [List.append_nil, Nat.zero_add] at h
    unfold decodeEntries
    rw [decodeEntriesAux_mono _ _ _ _ h (encodeEntriesPy311_length lo bo)]
  have hvar : decodeVarint (encode_svarint lo) = some (zigzag lo, []) := by
    rw [encode_svarint_eq_varint]
    have := decode_encode_varint (zigzag lo) []
    simpa using this
  obtain ⟨hsh1, hsh2⟩ := encode_varint_shape (zigzag lo)
  refine ⟨hdec, locChunks_sum bo, locChunks_le bo, ?_, hvar, unzigzag_zigzag lo,
    ?_, hsh1, hsh2⟩
  · intro hpos hle
    rw [encodeEntriesPy311]
    simp only [if_neg (by omega : ¬ bo = 0)]
    rw [dif_pos hle]
    rfl
  · simp only [zigzag]

    split_ifs <;> omega

/-- Witness for `encode_entries_py311_correct`: the group for a line delta
of `-300` over `20` code units decodes to three chunks `8, 8, 4`. -/
theorem encode_entries_py311_correct_witness :
    decodeEntries (encodeEntriesPy311 (-300) 20) =
      some [(8, -300), (8, -300), (4, -300)] ∧
    (encodeEntriesPy311 (-300) 20).head? = some 0xEF := by
  have hch : locChunks 20 = [8, 8, 4] := by
    rw [locChunks]
    norm_num
    rw [locChunks]
    norm_num
    rw [locChunks]
    norm_num
  constructor
  · have h := (encode_entries_py311_correct (-300) 20).1
    rw [h, hch]
    rfl
  · have h20 : (encodeEntriesPy311 (-300) 20) =
        encodeEntriesPy311 (-300) 8 ++ encodeEntriesPy311 (-300) 12 := by
      rw [encodeEntriesPy311]
      norm_num
    have h8 : encodeEntriesPy311 (-300) 8 = 0xEF :: encode_svarint (-300) := by
      rw [encodeEntriesPy311]
      norm_num
    rw [h20, h8]
    rfl

/-! ### Python values and objects -/

/-- The Python values appearing in the modeled fragments (constants,
subscript keys). -/
inductive PyVal where
  | pyNone : PyVal
  | pyBool (b : Bool) : PyVal
  | pyInt (n : Int) : PyVal
  | pyStr (s : String) : PyVal
deriving DecidableEq, Repr

/-- Python `==` on the embedded values: a boolean compares equal to its
integer value (`1 == True`), the behaviour the comment in
`gen_load_const` warns about. -/
def pyEq : PyVal → PyVal → Bool
  | .pyNone, .pyNone => true
  | .pyBool a, .pyBool b => a == b
  | .pyInt a, .pyInt b => a == b
  | .pyBool a, .pyInt b => (if a then (1 : Int) else 0) == b
  | .pyInt a, .pyBool b => a == (if b then (1 : Int) else 0)
  | .pyStr a, .pyStr b => a == b
  | _, _ => false

/-- `repr` of an embedded value (used for the `{self.key!r}` f-string of
`GetItemTracker`). -/
def pyRepr : PyVal → String
  | .pyNone => "None"
  | .pyBool b => if b then "True" else "False"
  | .pyInt n => toString n
  | .pyStr s => "'" ++ s ++ "'"

/-- A Python object: an identity (`id()`) together with its value.  The
identity is what `list_contain_by_id` / `list_find_index_by_id` compare. -/
structure PyObj where
  oid : Nat
  val : PyVal
deriving DecidableEq, Repr

/-- `list_find_index_by_id` of `utils.py`: the index of the first element
with the same object identity (callers establish containment first, so
the missing-element error path of Python `.index` is unreachable). -/
def list_find_index_by_id (li : List PyObj) (item : PyObj) : Nat :=
  (li.map PyObj.oid).indexOf item.oid

/-- `list_contain_by_id` of `utils.py`: membership by object identity. -/
def list_contain_by_id (li : List PyObj) (item : PyObj) : Bool :=
  (li.map PyObj.oid).contains item.oid

/-! ### The provenance-tracker graph (`tracker.py`) -/

/-- A symbolic expression as produced by `trace_value_from_frame`
(`StringifyExpression` of `guard.py`): the textual expression and its
free external names. -/
structure StringifyExpression where
  expr : String
  free_vars : List String
deriving DecidableEq, Repr

/-- Modelled from the spec: `union_free_vars` lives in the `guard` module,
which is not among the sources; per the spec it merges the free-variable
sets of the given descriptions. -/
def union_free_vars (dicts : List (List String)) : List String :=
  dicts.flatMap id

/-- Model of the Python builtin `str.isidentifier` on the ASCII fragment:
nonempty, starts with a letter or underscore, continues with letters,
digits or underscores (used by `GetAttrTracker.trace_value_from_frame`). -/
def str_isidentifier (s : String) : Bool :=
  match s.data with
  | [] => false
  | c :: cs => (c.isAlpha || c = '_') && cs.all (fun d => d.isAlphanum || d = '_')

/-- The tracker graph of `tracker.py`.  Each tracked value owns one
tracker; composite trackers hold their parent values' trackers as inputs
(the `VariableBase` wrapper contributes nothing else that the modeled
operations read). -/
inductive Tracker where
  | dummy (inputs : List Tracker)
  | dangling
  | localT (name : String)
  | cellT (name : String)
  | globalT (name : String)
  | builtinT (name : String)
  | constT (value : PyVal)
  | getAttrT (obj : Tracker) (attr : String)
  | getItemT (container : Tracker) (key : PyVal)
  | getIterT (iter_source : Tracker)

/-- `Tracker.is_traceable`: the base class requires every input to be
traceable (vacuously true for leaves); `DummyTracker` and
`DanglingTracker` override the answer to `False`. -/
def is_traceable : Tracker → Bool
  | .dummy _ => false
  | .dangling => false
  | .getAttrT obj _ => is_traceable obj
  | .getItemT c _ => is_traceable c
  | .getIterT s => is_traceable s
  | .localT _ => true
  | .cellT _ => true
  | .globalT _ => true
  | .builtinT _ => true
  | .constT _ => true

/-- The direct tracker inputs of a tracker (`Tracker.inputs`, through the
owning variables). -/
def inputsOf : Tracker → List Tracker
  | .dummy l => l
  | .getAttrT obj _ => [obj]
  | .getItemT c _ => [c]
  | .getIterT s => [s]
  | _ => []

/-- The unreconstructable (`DummyTracker`) and dangling
(`DanglingTracker`) variants. -/
def isDummyOrDangling : Tracker → Bool
  | .dummy _ => true
  | .dangling => true
  | _ => false

/-- Modelled from the spec: the `variables` module (`VariableBase`) is not
among the sources; per the spec's data model a traced value carries only
its tracker reference, so the attribute access `self.iter_source.expr`
performed inside `GetIterTracker.trace_value_from_frame`'s f-string has no
attribute to read and fails — modeled as this error result (the computed
parent description `iter_source_tracer` is discarded by the source
exactly as it is here). -/
def iterSourceExprFailure : Except String StringifyExpression :=
  .error "AttributeError: iter_source has no attribute expr"

/-- `trace_value_from_frame` of the tracker variants: a side-effect-free
description of where to read the value from the original frame, or a
construction error (`InnerError`) for the dummy/dangling variants. -/
def trace_value_from_frame : Tracker → Except String StringifyExpression
  | .dummy _ => .error "DummyTracker can't trace value from frame"
  | .dangling => .error "DanglingTracker can't trace value from frame"
  | .localT n => .ok ⟨"frame.f_locals['" ++ n ++ "']", []⟩
  | .cellT n => .ok ⟨"frame.f_locals['" ++ n ++ "']", []⟩
  | .globalT n => .ok ⟨"frame.f_globals['" ++ n ++ "']", []⟩
  | .builtinT n => .ok ⟨"builtins.__dict__[" ++ n ++ "]", ["builtins"]⟩
  | .constT v => .ok ⟨pyRepr v, []⟩
  | .getAttrT obj attr => do
    let obj_tracer ← trace_value_from_frame obj
    if str_isidentifier attr then
      .ok ⟨obj_tracer.expr ++ "." ++ attr, union_free_vars [obj_tracer.free_vars]⟩
    else
      .ok ⟨"getattr(" ++ obj_tracer.expr ++ ", '" ++ attr ++ "')",
        union_free_vars [obj_tracer.free_vars]⟩
  | .getItemT c key => do
    let container_tracer ← trace_value_from_frame c
    .ok ⟨container_tracer.expr ++ "[" ++ pyRepr key ++ "]",
      union_free_vars [container_tracer.free_vars]⟩
  | .getIterT s => do
    let _iter_source_tracer ← trace_value_from_frame s
    iterSourceExprFailure

/-- The instruction shapes the trackers emit. -/
inductive EmitOp where
  | load_fast (name : String)
  | load_deref (name : String)
  | load_global (name : String)
  | load_const (value : PyVal)
  | load_attr (name : String)
  | binary_subscr
  | get_iter
deriving DecidableEq, Repr

/-- `gen_instructions` of the tracker variants: emit the loads that push
the value, recursing into the parent first; the dummy/dangling variants
raise a construction error. -/
def gen_instructions : Tracker → Except String (List EmitOp)
  | .dummy _ => .error "DummyTracker has no instructions"
  | .dangling => .error "DanglingTracker has no instructions"
  | .localT n => .ok [.load_fast n]
  | .cellT n => .ok [.load_deref n]
  | .globalT n => .ok [.load_global n]
  | .builtinT n => .ok [.load_global n]
  | .constT v => .ok [.load_const v]
  | .getAttrT obj attr => do
    let ops ← gen_instructions obj
    .ok (ops ++ [.load_attr attr])
  | .getItemT c key => do
    let ops ← gen_instructions c
    .ok (ops ++ [.load_const key, .binary_subscr])
  | .getIterT s => do
    let ops ← gen_instructions s
    .ok (ops ++ [.get_iter])

/-- Transitive input relation on trackers: `InputRel u t` holds when `u`
is reachable from `t` through one or more `inputs` edges. -/
inductive InputRel : Tracker → Tracker → Prop
  | direct {u t : Tracker} : u ∈ inputsOf t → InputRel u t
  | tail {u v t : Tracker} : InputRel u v → v ∈ inputsOf t → InputRel u t

theorem traceable_inputs {t : Tracker} (h : is_traceable t = true) :
    ∀ u ∈ inputsOf t, is_traceable u = true := by
  cases t <;> simp_all [is_traceable, inputsOf]

theorem InputRel_traceable :
    ∀ {u t : Tracker}, InputRel u t → is_traceable t = true →
      is_traceable u = true := by
  intro u t hrel
  induction hrel with
  | direct hmem => intro h; exact traceable_inputs h _ hmem
  | tail _ hmem ih => intro h; exact ih (traceable_inputs h _ hmem)

theorem not_traceable_aux :
    ∀ (n : Nat) (t : Tracker), sizeOf t = n → isDummyOrDangling t = false →
      is_traceable t = false →
      ∃ u, InputRel u t ∧ is_traceable u = false := by
  intro n
  induction n using Nat.strong_induction_on with
  | _ n ih =>
    intro t hsz hdd htr
    match t with
    | .dummy _ => simp [isDummyOrDangling] at hdd
    | .dangling => simp [isDummyOrDangling] at hdd
    | .localT _ => simp [is_traceable] at htr
    | .cellT _ => simp [is_traceable] at htr
    | .globalT _ => simp [is_traceable] at htr
    | .builtinT _ => simp [is_traceable] at htr
    | .constT _ => simp [is_traceable] at htr
    | .getAttrT obj attr =>
      simp only [is_traceable] at htr
      by_cases hdd2 : isDummyOrDangling obj = true
      · exact ⟨obj, InputRel.direct (by simp [inputsOf]), htr⟩
      · have hlt : sizeOf obj < n := by
          subst hsz
          simp
          omega
        obtain ⟨u, hrel, hu⟩ :=
          ih (sizeOf obj) hlt obj rfl (by simpa using hdd2) htr
        exact ⟨u, InputRel.tail hrel (by simp [inputsOf]), hu⟩
    | .getItemT c key =>
      simp only [is_traceable] at htr
      by_cases hdd2 : isDummyOrDangling c = true
      · exact ⟨c, InputRel.direct (by simp [inputsOf]), htr⟩
      · have hlt : sizeOf c < n := by
          subst hsz
          simp
          omega
        obtain ⟨u, hrel, hu⟩ :=
          ih (sizeOf c) hlt c rfl (by simpa using hdd2) htr
        exact ⟨u, InputRel.tail hrel (by simp [inputsOf]), hu⟩
    | .getIterT s =>
      simp only [is_traceable] at htr
      by_cases hdd2 : isDummyOrDangling s = true
      · exact ⟨s, InputRel.direct (by simp [inputsOf]), htr⟩
      · have hlt : sizeOf s < n := by
          subst hsz
          simp
        obtain ⟨u, hrel, hu⟩ :=
          ih (sizeOf s) hlt s rfl (by simpa using hdd2) htr
        exact ⟨u, InputRel.tail hrel (by simp [inputsOf]), hu⟩

theorem not_traceable_witness :
    ∀ t : Tracker, isDummyOrDangling t = false → is_traceable t = false →
      ∃ u, InputRel u t ∧ is_traceable u = false :=
  fun t => not_traceable_aux (sizeOf t) t rfl

/-- C7. The dummy (unreconstructable) and dangling trackers are never
traceable and both emission and description raise a construction error
instead of producing output; every other tracker is traceable exactly
when all of its transitive input trackers are traceable.  (For a
dummy/dangling tracker the claim's biconditional is excluded because the
override answers `False` regardless of the inputs.) -/
theorem tracker_traceability :
    (∀ inputs : List Tracker, is_traceable (.dummy inputs) = false) ∧
    is_traceable .dangling = false ∧
    (∀ inputs : List Tracker,
      gen_instructions (.dummy inputs) = .error "DummyTracker has no instructions" ∧
      trace_value_from_frame (.dummy inputs) =
        .error "DummyTracker can't trace value from frame") ∧
    (gen_instructions .dangling = .error "DanglingTracker has no instructions" ∧
     trace_value_from_frame .dangling =
       .error "DanglingTracker can't trace value from frame") ∧
    (∀ t : Tracker, isDummyOrDangling t = false →
      (is_traceable t = true ↔ ∀ u, InputRel u t → is_traceable u = true)) := by
  refine ⟨fun _ => rfl, rfl, fun _ => ⟨rfl, rfl⟩, ⟨rfl, rfl⟩, ?_⟩
  intro t hdd
  constructor
  · intro h u hrel
    exact InputRel_traceable hrel h
  · intro hall
    by_contra hnt
    have hf : is_traceable t = false := by
      cases h : is_traceable t
      · rfl
      · exact absurd h hnt
    obtain ⟨u, hrel, hu⟩ := not_traceable_witness t hdd hf
    have := hall u hrel
    rw [this] at hu
    exact Bool.noConfusion hu

/-- Witness for `tracker_traceability`: the biconditional applied to a
concrete attribute tracker over a local. -/
theorem tracker_traceability_witness :
    is_traceable (.getAttrT (.localT "x") "a") = true ↔
      ∀ u, InputRel u (.getAttrT (.localT "x") "a") → is_traceable u = true := by
  exact tracker_traceability.2.2.2.2 (.getAttrT (.localT "x") "a") rfl

/-- C8 (supporting theorem).  For attribute and subscript trackers the
description is the parent's description extended by exactly one access
step, with the parent's free variables carried over; but for the iterator
tracker the source ignores the computed parent description
(`iter_source_tracer`) and instead reads a nonexistent `expr` attribute
off the variable object, so no `iter(<parent description>)` expression is
ever produced — evaluated here at the failing input
`GetIterTracker(LocalTracker "x")`. -/
theorem trace_one_step_access :
    (∀ (parent : Tracker) (attr : String) (e : StringifyExpression),
      trace_value_from_frame parent = .ok e →
      trace_value_from_frame (.getAttrT parent attr) = .ok
        ⟨if str_isidentifier attr then e.expr ++ "." ++ attr
          else "getattr(" ++ e.expr ++ ", '" ++ attr ++ "')",
         union_free_vars [e.free_vars]⟩) ∧
    (∀ (parent : Tracker) (key : PyVal) (e : StringifyExpression),
      trace_value_from_frame parent = .ok e →
      trace_value_from_frame (.getItemT parent key) = .ok
        ⟨e.expr ++ "[" ++ pyRepr key ++ "]", union_free_vars [e.free_vars]⟩) ∧
    (∀ (l : List String) (s : String), s ∈ l → s ∈ union_free_vars [l]) ∧
    (trace_value_from_frame (.localT "x") = .ok ⟨"frame.f_locals['x']", []⟩ ∧
     trace_value_from_frame (.getIterT (.localT "x")) =
       .error "AttributeError: iter_source has no attribute expr") := by
  refine ⟨?_, ?_, ?_, rfl, rfl⟩
  · intro parent attr e he
    simp only [trace_value_from_frame, he, Except.bind]
    split_ifs <;> rfl
  · intro parent key e he
    simp only [trace_value_from_frame, he, Except.bind]
    rfl
  · intro l s hs
    simpa [union_free_vars] using hs

/-- Witness for `trace_one_step_access`: one attribute step over a
local. -/
theorem trace_one_step_access_witness :
    trace_value_from_frame (.getAttrT (.localT "x") "shape") = .ok
      ⟨if str_isidentifier "shape" then "frame.f_locals['x']" ++ "." ++ "shape"
        else "getattr(" ++ "frame.f_locals['x']" ++ ", '" ++ "shape" ++ "')",
       union_free_vars [[]]⟩ :=
  trace_one_step_access.1 (.localT "x") "shape" ⟨"frame.f_locals['x']", []⟩ rfl

/-! ### The `PyCodeGen` façade state (`pycode_generator.py`) -/

/-- An `Instruction` node as handled by the façade, modelled from the
spec's data model: opcode name, optional operand, a structural jump
reference (here the target instruction's identity) and the node's own
identity (`gen_instr` creates a fresh object per call).  The
`instruction_utils` module that defines the class is not among the
sources; this model follows the spec's `Instruction` record. -/
structure IObj where
  iid : Nat
  opname : String
  arg : Option Nat
  jump_to : Option Nat
deriving DecidableEq, Repr

/-- The façade state fragment the modeled operations touch: the
accumulated instruction list, the constant pool and the local-name table
(both `code_options` entries), and the id source minting fresh
instruction identities. -/
structure PCGState where
  instructions : List IObj
  co_consts : List PyObj
  co_varnames : List String
  fresh : Nat
deriving DecidableEq, Repr

/-- `PyCodeGen._add_instr`: create a fresh instruction object and append
it. -/
def pcg_add_instr (st : PCGState) (opname : String) (arg : Option Nat) :
    PCGState × IObj :=
  let instr : IObj := ⟨st.fresh, opname, arg, none⟩
  ({ st with
      instructions := st.instructions ++ [instr]
      fresh := st.fresh + 1 },
   instr)

/-- `PyCodeGen.gen_load_const`: append the constant to the pool unless an
identical (by `id()`) object is already there, then emit `LOAD_CONST`
with the identity-based index. -/
def gen_load_const (st : PCGState) (value : PyObj) : PCGState :=
  let consts :=
    if list_contain_by_id st.co_consts value then st.co_consts
    else st.co_consts ++ [value]
  let idx := list_find_index_by_id consts value
  (pcg_add_instr { st with co_consts := consts } "LOAD_CONST" (some idx)).1

/-- `PyCodeGen.gen_store_fast`: intern the local name and emit
`STORE_FAST`. -/
def gen_store_fast (st : PCGState) (name : String) : PCGState :=
  let vn :=
    if name ∈ st.co_varnames then st.co_varnames
    else st.co_varnames ++ [name]
  let idx := vn.indexOf name
  (pcg_add_instr { st with co_varnames := vn } "STORE_FAST" (some idx)).1

/-- `PyCodeGen.gen_pop_top`. -/
def gen_pop_top (st : PCGState) : PCGState :=
  (pcg_add_instr st "POP_TOP" none).1

/-- The interned `None` and `False` objects (CPython singletons), used by
`gen_loop_body_between`. -/
def pyNoneObj : PyObj := ⟨0, PyVal.pyNone⟩

def pyFalseObj : PyObj := ⟨1, PyVal.pyBool false⟩

/-- The jump-retargeting applied to each instruction by
`gen_loop_body_between`'s final loop: a jump to the `FOR_ITER`
instruction becomes a jump to the continue anchor, then a jump to the
loop exit becomes a jump to the break anchor (the two `if`s run in
sequence, exactly as in the source). -/
def retargetInstr (forIterId outLoopId contId brkId : Nat) (i : IObj) : IObj :=
  let i1 :=
    if i.jump_to = some forIterId then { i with jump_to := some contId } else i
  if i1.jump_to = some outLoopId then { i1 with jump_to := some brkId } else i1

/-- The instruction-building phase of `gen_loop_body_between`, up to (and
excluding) the retargeting loop: push the balancing `None`, splice the
loop-body instructions, add the break anchor `NOP`, clear the break flag
(`False` → `_break_flag`, then a balancing `None`), add the continue
anchor `NOP` and a `POP_TOP`.  Returns the state together with the break
and continue anchors' identities. -/
def gen_loop_body_pre (st : PCGState) (bodyInstrs : List IObj) :
    PCGState × Nat × Nat :=
  let st1 := gen_load_const st pyNoneObj
  let st2 := { st1 with instructions := st1.instructions ++ bodyInstrs }
  let r3 := pcg_add_instr st2 "NOP" none
  let st4 := gen_load_const r3.1 pyFalseObj
  let st5 := gen_store_fast st4 "_break_flag"
  let st6 := gen_load_const st5 pyNoneObj
  let r7 := pcg_add_instr st6 "NOP" none
  let st8 := gen_pop_top r7.1
  (st8, r3.2.iid, r7.2.iid)

/-- `PyCodeGen.gen_loop_body_between`: build the loop-body unit, retarget
every jump that aimed at the `FOR_ITER` instruction to the continue
anchor and every jump that aimed at the loop exit (`for_iter.jump_to`) to
the break anchor, and hand `create_fn_with_specific_io` the *same* list
as inputs and outputs.  The name analysis (`analysis_inputs_outputs`) and
the extraction-function builder live outside the modeled sources, so the
analysis result is a parameter and the builder call boundary is
represented by the returned `(inputs, outputs)` argument pair. -/
def gen_loop_body_between (st : PCGState) (forIterId outLoopId : Nat)
    (bodyInstrs : List IObj) (analysisNames : List String) :
    PCGState × (List String × List String) × List String :=
  let inputs := analysisNames ++ ["_break_flag"]
  let pre := gen_loop_body_pre st bodyInstrs
  let st9 :=
    { pre.1 with
        instructions := pre.1.instructions.map
          (retargetInstr forIterId outLoopId pre.2.2 pre.2.1) }
  (st9, (inputs, inputs), inputs)

/-- C5. Identity-based constant deduplication in `gen_load_const`:
loading the same object twice leaves the pool unchanged (and emits the
same operand twice), loading two distinct-by-identity objects that are
not yet pooled — such as the equal-but-distinct pair `1` and `True` —
appends two separate entries in first-seen order, the pool only ever
grows by appending, and the emitted `LOAD_CONST` operand is the
identity-based index of the value. -/
theorem gen_load_const_dedup :
    (∀ (st : PCGState) (v : PyObj),
      (gen_load_const (gen_load_const st v) v).co_consts =
        (gen_load_const st v).co_consts) ∧
    (∀ (st : PCGState) (v w : PyObj),
      v.oid ≠ w.oid →
      list_contain_by_id st.co_consts v = false →
      list_contain_by_id st.co_consts w = false →
      (gen_load_const (gen_load_const st v) w).co_consts =
        st.co_consts ++ [v, w]) ∧
    (∀ (st : PCGState) (v : PyObj), ∃ tail,
      (gen_load_const st v).co_consts = st.co_consts ++ tail) ∧
    (∀ (st : PCGState) (v : PyObj),
      (gen_load_const st v).instructions = st.instructions ++
        [⟨st.fresh, "LOAD_CONST",
          some (list_find_index_by_id (gen_load_const st v).co_consts v),
          none⟩]) ∧
    pyEq (PyVal.pyInt 1) (PyVal.pyBool true) = true := by
  have hcontain : ∀ (li : List PyObj) (v : PyObj),
      list_contain_by_id (li ++ [v]) v = true := by
    intro li v
    simp [list_contain_by_id]
  refine ⟨?_, ?_, ?_, ?_, by decide⟩
  · intro st v
    by_cases h : list_contain_by_id st.co_consts v
    · simp [gen_load_const, pcg_add_instr, h]
    · simp only [gen_load_const, pcg_add_instr, h, if_false, Bool.false_eq_true,
        if_neg, hcontain st.co_consts v, if_true]
  · intro st v w hvw hv hw
    have hconsts : ∀ (st' : PCGState) (u : PyObj),
        (gen_load_const st' u).co_consts =
          if list_contain_by_id st'.co_consts u then st'.co_consts
          else st'.co_consts ++ [u] := fun _ _ => rfl
    have h1 : (gen_load_const st v).co_consts = st.co_consts ++ [v] := by
      rw [hconsts, hv]
      rfl
    have hw2 : list_contain_by_id (st.co_consts ++ [v]) w = false := by
      simp only [list_contain_by_id, List.map_append, List.map_cons,
        List.map_nil] at hw ⊢
      simp at hw ⊢
      exact ⟨hw, by omega⟩
    have h2 : (gen_load_const (gen_load_const st v) w).co_consts =
        (st.co_consts ++ [v]) ++ [w] := by
      rw [hconsts, h1, hw2]
      rfl
    rw [h2, List.append_assoc]
    rfl
  · intro st v
    by_cases h : list_contain_by_id st.co_consts v
    · exact ⟨[], by simp [gen_load_const, pcg_add_instr, h]⟩
    · exact ⟨[v], by simp [gen_load_const, pcg_add_instr, h]⟩
  · intro st v
    by_cases h : list_contain_by_id st.co_consts v
    · simp [gen_load_const, pcg_add_instr, h]
    · simp [gen_load_const, pcg_add_instr, h]

/-- Witness for `gen_load_const_dedup`: the integer `1` and the boolean
`True` are equal by Python `==` yet get two pool entries, starting from
an empty pool. -/
theorem gen_load_const_dedup_witness :
    (gen_load_const (gen_load_const ⟨[], [], [], 0⟩ ⟨100, PyVal.pyInt 1⟩)
        ⟨101, PyVal.pyBool true⟩).co_consts =
      [⟨100, PyVal.pyInt 1⟩, ⟨101, PyVal.pyBool true⟩] ∧
    (gen_load_const (gen_load_const ⟨[], [], [], 0⟩ ⟨100, PyVal.pyInt 1⟩)
        ⟨100, PyVal.pyInt 1⟩).co_consts = [⟨100, PyVal.pyInt 1⟩] := by
  constructor
  · have h := gen_load_const_dedup.2.1 ⟨[], [], [], 0⟩
      ⟨100, PyVal.pyInt 1⟩ ⟨101, PyVal.pyBool true⟩
      (by decide) (by decide) (by decide)
    simpa using h
  · have h := gen_load_const_dedup.1 ⟨[], [], [], 0⟩ ⟨100, PyVal.pyInt 1⟩
    rw [h]
    decide

theorem retargetInstr_spec (forIterId outLoopId contId brkId : Nat)
    (hcf : contId ≠ forIterId) (hco : contId ≠ outLoopId)
    (hbf : brkId ≠ forIterId) (hbo : brkId ≠ outLoopId)
    (hfo : forIterId ≠ outLoopId) (i : IObj) :
    (i.jump_to = some forIterId →
      (retargetInstr forIterId outLoopId contId brkId i).jump_to = some contId) ∧
    (i.jump_to = some outLoopId →
      (retargetInstr forIterId outLoopId contId brkId i).jump_to = some brkId) ∧
    (retargetInstr forIterId outLoopId contId brkId i).jump_to ≠ some forIterId ∧
    (retargetInstr forIterId outLoopId contId brkId i).jump_to ≠ some outLoopId ∧
    (retargetInstr forIterId outLoopId contId brkId i).iid = i.iid ∧
    (retargetInstr forIterId outLoopId contId brkId i).opname = i.opname ∧
    (i.jump_to = none → retargetInstr forIterId outLoopId contId brkId i = i) := by
  by_cases h1 : i.jump_to = some forIterId
  · have hres : retargetInstr forIterId outLoopId contId brkId i =
        { i with jump_to := some contId } := by
      simp only [retargetInstr]
      rw [if_pos h1, if_neg (by simp [hco] :
        ¬ ({ i with jump_to := some contId } : IObj).jump_to = some outLoopId)]
    rw [hres]
    refine ⟨fun _ => rfl, ?_, by simp [hcf], by simp [hco], rfl, rfl, ?_⟩
    · intro h2
      rw [h1] at h2
      injection h2 with h2
      exact absurd h2 hfo
    · intro h2
      rw [h1] at h2
      exact Option.noConfusion h2
  · by_cases h2 : i.jump_to = some outLoopId
    · have hres : retargetInstr forIterId outLoopId contId brkId i =
          { i with jump_to := some brkId } := by
        simp only [retargetInstr]
        rw [if_neg h1, if_pos h2]
      rw [hres]
      refine ⟨fun h => absurd h h1, fun _ => rfl, by simp [hbf], by simp [hbo],
        rfl, rfl, ?_⟩
      intro h3
      rw [h2] at h3
      exact Option.noConfusion h3
    · have hres : retargetInstr forIterId outLoopId contId brkId i = i := by
        simp only [retargetInstr]
        rw [if_neg h1, if_neg h2]
      rw [hres]
      exact ⟨fun h => absurd h h1, fun h => absurd h h2, h1, h2, rfl, rfl,
        fun _ => rfl⟩

/-- C6. After `gen_loop_body_between`, every instruction that jumped to
the loop's `FOR_ITER` instruction jumps to the continue-anchor `NOP` and
every instruction that jumped to the loop's exit point jumps to the
break-anchor `NOP`; both anchors are fresh `NOP` instructions of the
extracted unit, no jump of the unit still targets the original external
points, and the input-name list handed to the extraction-function builder
is exactly the output-name list. -/
theorem gen_loop_body_between_spec
    (st : PCGState) (forIterId outLoopId : Nat) (body : List IObj)
    (analysisNames : List String)
    (hfor : forIterId < st.fresh) (hout : outLoopId < st.fresh)
    (hfo : forIterId ≠ outLoopId) :
    ((gen_loop_body_between st forIterId outLoopId body analysisNames).2.1.1 =
       (gen_loop_body_between st forIterId outLoopId body analysisNames).2.1.2 ∧
     (gen_loop_body_between st forIterId outLoopId body analysisNames).2.1.1 =
       analysisNames ++ ["_break_flag"]) ∧
    (gen_loop_body_between st forIterId outLoopId body analysisNames).1.instructions =
      (gen_loop_body_pre st body).1.instructions.map
        (retargetInstr forIterId outLoopId
          (gen_loop_body_pre st body).2.2 (gen_loop_body_pre st body).2.1) ∧
    ((gen_loop_body_pre st body).2.1 = st.fresh + 1 ∧
     (gen_loop_body_pre st body).2.2 = st.fresh + 5 ∧
     (⟨(gen_loop_body_pre st body).2.1, "NOP", none, none⟩ : IObj) ∈
       (gen_loop_body_between st forIterId outLoopId body analysisNames).1.instructions ∧
     (⟨(gen_loop_body_pre st body).2.2, "NOP", none, none⟩ : IObj) ∈
       (gen_loop_body_between st forIterId outLoopId body analysisNames).1.instructions) ∧
    (∀ i ∈ (gen_loop_body_pre st body).1.instructions,
      (i.jump_to = some forIterId →
        (retargetInstr forIterId outLoopId
          (gen_loop_body_pre st body).2.2 (gen_loop_body_pre st body).2.1 i).jump_to =
          some (gen_loop_body_pre st body).2.2) ∧
      (i.jump_to = some outLoopId →
        (retargetInstr forIterId outLoopId
          (gen_loop_body_pre st body).2.2 (gen_loop_body_pre st body).2.1 i).jump_to =
          some (gen_loop_body_pre st body).2.1)) ∧
    (∀ i ∈ (gen_loop_body_between st forIterId outLoopId body analysisNames).1.instructions,
      i.jump_to ≠ some forIterId ∧ i.jump_to ≠ some outLoopId) := by
  have hbrk : (gen_loop_body_pre st body).2.1 = st.fresh + 1 := rfl
  have hcont : (gen_loop_body_pre st body).2.2 = st.fresh + 5 := rfl
  have hcf : (gen_loop_body_pre st body).2.2 ≠ forIterId := by omega
  have hco : (gen_loop_body_pre st body).2.2 ≠ outLoopId := by omega
  have hbf : (gen_loop_body_pre st body).2.1 ≠ forIterId := by omega
  have hbo : (gen_loop_body_pre st body).2.1 ≠ outLoopId := by omega
  have hspec := fun i => retargetInstr_spec forIterId outLoopId
    (gen_loop_body_pre st body).2.2 (gen_loop_body_pre st body).2.1
    hcf hco hbf hbo hfo i
  have hmap : (gen_loop_body_between st forIterId outLoopId body analysisNames).1.instructions =
      (gen_loop_body_pre st body).1.instructions.map
        (retargetInstr forIterId outLoopId
          (gen_loop_body_pre st body).2.2 (gen_loop_body_pre st body).2.1) := rfl
  have hnopB : (⟨(gen_loop_body_pre st body).2.1, "NOP", none, none⟩ : IObj) ∈
      (gen_loop_body_pre st body).1.instructions := by
    simp [gen_loop_body_pre, gen_load_const, gen_store_fast, gen_pop_top,
      pcg_add_instr]
  have hnopC : (⟨(gen_loop_body_pre st body).2.2, "NOP", none, none⟩ : IObj) ∈
      (gen_loop_body_pre st body).1.instructions := by
    simp [gen_loop_body_pre, gen_load_const, gen_store_fast, gen_pop_top,
      pcg_add_instr]
  refine ⟨⟨rfl, rfl⟩, hmap, ⟨hbrk, hcont, ?_, ?_⟩, ?_, ?_⟩
  · rw [hmap]
    have hfix : retargetInstr forIterId outLoopId
        (gen_loop_body_pre st body).2.2 (gen_loop_body_pre st body).2.1
        ⟨(gen_loop_body_pre st body).2.1, "NOP", none, none⟩ =
        ⟨(gen_loop_body_pre st body).2.1, "NOP", none, none⟩ :=
      (hspec _).2.2.2.2.2.2 rfl
    rw [← hfix]
    exact List.mem_map_of_mem _ hnopB
  · rw [hmap]
    have hfix : retargetInstr forIterId outLoopId
        (gen_loop_body_pre st body).2.2 (gen_loop_body_pre st body).2.1
        ⟨(gen_loop_body_pre st body).2.2, "NOP", none, none⟩ =
        ⟨(gen_loop_body_pre st body).2.2, "NOP", none, none⟩ :=
      (hspec _).2.2.2.2.2.2 rfl
    rw [← hfix]
    exact List.mem_map_of_mem _ hnopC
  · intro i _
    exact ⟨(hspec i).1, (hspec i).2.1⟩
  · intro i hi
    rw [hmap] at hi
    obtain ⟨j, _, rfl⟩ := List.mem_map.mp hi
    exact ⟨(hspec j).2.2.1, (hspec j).2.2.2.1⟩

/-- Witness for `gen_loop_body_between_spec`: a concrete two-instruction
loop body whose `JUMP_ABSOLUTE` instructions target the `FOR_ITER`
(id 90) and the loop exit (id 91) are retargeted to the two anchors. -/
theorem gen_loop_body_between_spec_witness :
    (∀ i ∈ (gen_loop_body_between ⟨[], [], [], 100⟩ 90 91
        [⟨50, "JUMP_ABSOLUTE", none, some 90⟩, ⟨51, "JUMP_ABSOLUTE", none, some 91⟩]
        ["x"]).1.instructions,
      i.jump_to ≠ some 90 ∧ i.jump_to ≠ some 91) ∧
    (gen_loop_body_between ⟨[], [], [], 100⟩ 90 91
        [⟨50, "JUMP_ABSOLUTE", none, some 90⟩, ⟨51, "JUMP_ABSOLUTE", none, some 91⟩]
        ["x"]).2.1.1 =
      (gen_loop_body_between ⟨[], [], [], 100⟩ 90 91
        [⟨50, "JUMP_ABSOLUTE", none, some 90⟩, ⟨51, "JUMP_ABSOLUTE", none, some 91⟩]
        ["x"]).2.1.2 := by
  have h := gen_loop_body_between_spec ⟨[], [], [], 100⟩ 90 91
    [⟨50, "JUMP_ABSOLUTE", none, some 90⟩, ⟨51, "JUMP_ABSOLUTE", none, some 91⟩]
    ["x"] (by decide) (by decide) (by decide)
  exact ⟨h.2.2.2.2, h.1.1⟩

/-! ### The resume-function name factory (`utils.py`, claim C9) -/

/-- `NameGenerator` of `utils.py`: a prefix and a counter. -/
structure NameGenerator where
  counter : Nat
  pfx : String
deriving DecidableEq, Repr

/-- `NameGenerator.next`: mint `prefix + str(counter)` and advance. -/
def NameGenerator.next (g : NameGenerator) : String × NameGenerator :=
  (g.pfx ++ toString g.counter, { g with counter := g.counter + 1 })

/-- `ResumeFnNameFactory` instance state: it owns one `NameGenerator`
with prefix `resume_`. -/
structure ResumeFnNameFactory where
  gen : NameGenerator
deriving DecidableEq, Repr

/-- The factory constructed on first use (`__init__`). -/
def ResumeFnNameFactory.init : ResumeFnNameFactory := ⟨⟨0, "resume_"⟩⟩

/-- `ResumeFnNameFactory.next`: delegate to the owned generator. -/
def ResumeFnNameFactory.next (f : ResumeFnNameFactory) :
    String × ResumeFnNameFactory :=
  let r := f.gen.next
  (r.1, ⟨r.2⟩)

/-- The process-wide `Singleton` cell wrapping the factory class
(`utils.Singleton`): calling the decorated class returns the one shared
instance, creating it on first use. -/
def singleton_call (cell : Option ResumeFnNameFactory) :
    ResumeFnNameFactory × Option ResumeFnNameFactory :=
  match cell with
  | none => (ResumeFnNameFactory.init, some ResumeFnNameFactory.init)
  | some inst => (inst, some inst)

/-- One `ResumeFnNameFactory().next()` call as performed by
`gen_resume_fn_at` and `create_fn_with_specific_io`: look up the shared
singleton instance, advance its generator, leave the advanced instance in
the process-wide cell. -/
def mint_resume_name (cell : Option ResumeFnNameFactory) :
    String × Option ResumeFnNameFactory :=
  let inst := (singleton_call cell).1
  let r := inst.next
  (r.1, some r.2)

/-- A process run of minting calls by interleaved synthesis sessions:
each list entry is the session tag performing that call; the list of
`(session, minted name)` pairs is returned. -/
def runSessions : List Bool → Option ResumeFnNameFactory →
    List (Bool × String)
  | [], _ => []
  | tag :: rest, cell =>
    let r := mint_resume_name cell
    (tag, r.1) :: runSessions rest r.2

/-- Counterexample to C9 as stated: the factory is a process-wide
`Singleton`, so the first name session `A` (tag `true`) mints *does*
depend on how many names session `B` (tag `false`) minted before it —
`resume_0` in a fresh process, but `resume_1` after one mint by `B`. -/
theorem resume_name_counter_shared_cex :
    runSessions [true] none = [(true, "resume_0")] ∧
    runSessions [false, true] none =
      [(false, "resume_0"), (true, "resume_1")] ∧
    ("resume_1" : String) ≠ "resume_0" := by
  refine ⟨rfl, rfl, by decide⟩

/-- C9 (amended: the counter is a process-wide singleton, not
session-owned).  Whatever the interleaving of sessions, the `k`-th mint
of the process yields `resume_<c+k>` where `c` is the shared counter's
current value — the name depends only on the process-wide total of
earlier mints, including those of other sessions, and never on which
session asks. -/
theorem resume_names_globally_sequential :
    ∀ (tags : List Bool) (c k : Nat), k < tags.length →
      (runSessions tags (some ⟨⟨c, "resume_"⟩⟩)).getD k (true, "") =
        (tags.getD k true, "resume_" ++ toString (c + k)) := by
  intro tags
  induction tags with
  | nil => intro c k hk; simp at hk
  | cons tag rest ih =>
    intro c k hk
    match k with
    | 0 =>
      simp [runSessions, mint_resume_name, singleton_call,
        ResumeFnNameFactory.next, NameGenerator.next, List.getD]
    | k + 1 =>
      have hk' : k < rest.length := by
        simp only [List.length_cons] at hk
        omega
      have hstep : runSessions (tag :: rest) (some ⟨⟨c, "resume_"⟩⟩) =
          (tag, "resume_" ++ toString c) ::
            runSessions rest (some ⟨⟨c + 1, "resume_"⟩⟩) := rfl
      rw [hstep]
      have := ih (c + 1) k hk'
      simp only [List.getD_cons_succ]
      rw [this]
      have : c + 1 + k = c + (k + 1) := by omega
      rw [this]

/-- Witness for `resume_names_globally_sequential`: the second mint of a
run that interleaves two sessions is `resume_1` regardless of the tags. -/
theorem resume_names_globally_sequential_witness :
    (runSessions [false, true] (some ⟨⟨0, "resume_"⟩⟩)).getD 1 (true, "") =
      (true, "resume_" ++ toString (0 + 1)) :=
  resume_names_globally_sequential [false, true] 0 1 (by decide)

/-! ### `gen_resume_fn_at` (claim C10) -/

/-- An instruction as handled by the resume-synthesis path: opcode name,
display operand and (for the synthesized jump) the index of the resume
target inside the original sequence — the structural reference
`jump_to=self._instructions[index]`. -/
structure RInstr where
  opname : String
  argval : Option String
  jumpToOrig : Option Nat
deriving DecidableEq, Repr

/-- The façade state fragment `gen_resume_fn_at` touches. -/
structure RState where
  instructions : List RInstr
  co_argcount : Nat
  co_varnames : List String
deriving DecidableEq, Repr

/-- `PyCodeGen.gen_resume_fn_at`.  Modelled from the spec where the
sources stop: `get_instructions` (the decoder of the original code
object) is represented by the `originInstrs` parameter, the
`analysis_inputs` liveness scan by the `inputs` parameter, and the
factory-minted function name by `fn_name`; the downstream
`gen_pycode`/`modify_*` lowering is outside the modeled fragment, so the
synthesized unit is represented by the instruction list handed to it.
The first statement of the source replaces the façade's accumulated
`_instructions` with the freshly decoded sequence; on the
`RETURN_VALUE` fast path the function returns no unit, otherwise the
unit is the stack-placeholder loads, one unconditional jump to the resume
index, and the entire original sequence. -/
def gen_resume_fn_at (v : PyVersion) (st : RState) (originInstrs : List RInstr)
    (originVarnames : List String) (inputs : List String) (fn_name : String)
    (index stack_size : Nat) : RState × Option (List RInstr) :=
  let st1 := { st with instructions := originInstrs }
  if (originInstrs.getD index ⟨"", none, none⟩).opname = "RETURN_VALUE" then
    (st1, none)
  else
    let loads := (List.range stack_size).map
      (fun i =>
        (⟨"LOAD_FAST", some (fn_name ++ "_stack_" ++ toString i), none⟩ : RInstr))
    let jump : RInstr :=
      if v = PyVersion.py311 then ⟨"JUMP_FORWARD", none, some index⟩
      else ⟨"JUMP_ABSOLUTE", none, some index⟩
    let newInstrs := loads ++ [jump] ++ originInstrs
    ({ instructions := newInstrs
       co_argcount := inputs.length + stack_size
       co_varnames :=
         (List.range stack_size).map (fun i => fn_name ++ "_stack_" ++ toString i)
           ++ inputs ++ originVarnames.filter (fun n => ¬ n ∈ inputs) },
     some newInstrs)

/-- C10. `gen_resume_fn_at` replaces the façade's accumulated instruction
list with the sequence decoded from the original code object before
building the resume unit: the resulting instruction list (and the
synthesized unit) is a function of the original sequence, the resume
index and the stack size alone — instructions appended to the façade
before the call are discarded and never appear. -/
theorem gen_resume_fn_at_discards :
    ∀ (v : PyVersion) (st st' : RState) (origin : List RInstr)
      (ovn inputs : List String) (fn : String) (index stack_size : Nat),
      (gen_resume_fn_at v st origin ovn inputs fn index stack_size).1.instructions =
        (gen_resume_fn_at v st' origin ovn inputs fn index stack_size).1.instructions ∧
      (gen_resume_fn_at v st origin ovn inputs fn index stack_size).2 =
        (gen_resume_fn_at v st' origin ovn inputs fn index stack_size).2 ∧
      ((originInstrsReturn : (origin.getD index ⟨"", none, none⟩).opname = "RETURN_VALUE") →
        (gen_resume_fn_at v st origin ovn inputs fn index stack_size).1.instructions =
          origin) ∧
      ((origin.getD index ⟨"", none, none⟩).opname ≠ "RETURN_VALUE" →
        (gen_resume_fn_at v st origin ovn inputs fn index stack_size).1.instructions =
          (List.range stack_size).map
            (fun i =>
              (⟨"LOAD_FAST", some (fn ++ "_stack_" ++ toString i), none⟩ : RInstr))
            ++ [if v = PyVersion.py311 then ⟨"JUMP_FORWARD", none, some index⟩
                else ⟨"JUMP_ABSOLUTE", none, some index⟩]
            ++ origin) := by
  intro v st st' origin ovn inputs fn index stack_size
  by_cases h : (origin.getD index ⟨"", none, none⟩).opname = "RETURN_VALUE"
  · refine ⟨?_, ?_, fun _ => ?_, fun hne => absurd h hne⟩ <;>
      simp only [gen_resume_fn_at, if_pos h]
  · refine ⟨?_, ?_, fun hr => absurd hr h, fun _ => ?_⟩ <;>
      simp only [gen_resume_fn_at, if_neg h]

/-- Witness for `gen_resume_fn_at_discards`: a façade that already
accumulated a `POP_TOP` produces the same resume unit as a fresh one, and
the unit is the jump plus the original sequence. -/
theorem gen_resume_fn_at_discards_witness :
    (gen_resume_fn_at PyVersion.py38
        ⟨[⟨"POP_TOP", none, none⟩], 0, []⟩
        [⟨"LOAD_FAST", some "x", none⟩, ⟨"RETURN_VALUE", none, none⟩]
        ["x"] ["x"] "resume_0" 0 0).1.instructions =
      (gen_resume_fn_at PyVersion.py38 ⟨[], 0, []⟩
        [⟨"LOAD_FAST", some "x", none⟩, ⟨"RETURN_VALUE", none, none⟩]
        ["x"] ["x"] "resume_0" 0 0).1.instructions ∧
    (gen_resume_fn_at PyVersion.py38
        ⟨[⟨"POP_TOP", none, none⟩], 0, []⟩
        [⟨"LOAD_FAST", some "x", none⟩, ⟨"RETURN_VALUE", none, none⟩]
        ["x"] ["x"] "resume_0" 0 0).1.instructions =
      (List.range 0).map
        (fun i =>
          (⟨"LOAD_FAST", some ("resume_0" ++ "_stack_" ++ toString i), none⟩ : RInstr))
        ++ [if PyVersion.py38 = PyVersion.py311 then ⟨"JUMP_FORWARD", none, some 0⟩
            else ⟨"JUMP_ABSOLUTE", none, some 0⟩]
        ++ [⟨"LOAD_FAST", some "x", none⟩, ⟨"RETURN_VALUE", none, none⟩] := by
  have h := gen_resume_fn_at_discards PyVersion.py38
    ⟨[⟨"POP_TOP", none, none⟩], 0, []⟩ ⟨[], 0, []⟩
    [⟨"LOAD_FAST", some "x", none⟩, ⟨"RETURN_VALUE", none, none⟩]
    ["x"] ["x"] "resume_0" 0 0
  exact ⟨h.1, h.2.2.2 (by decide)⟩

/-! ### The stack-depth analyzer `stacksize` (claim C1) -/

/-- An instruction as consumed by `stacksize`.  The per-opcode data the
analyzer reads from the external `dis`/`opcode` modules is carried as
instruction fields: the two stack effects
(`dis.stack_effect(opcode, arg, jump=False/True)`), whether the opname is
in the unconditional-jump list `['JUMP_ABSOLUTE', 'JUMP_FORWARD',
'JUMP_BACKWRAD']`, whether the opcode is in `opcode.hasjabs ∪
opcode.hasjrel`, and the resolved index of the jump target
(`instructions.index(instr.jump_to)`). -/
structure SInstr where
  effFall : Int
  effJump : Int
  isUncondJump : Bool
  isJump : Bool
  jumpTo : Nat
deriving DecidableEq, Repr

instance : Inhabited SInstr := ⟨⟨0, 0, false, false, 0⟩⟩

/-- The successor edges the `stacksize` loop relaxes out of instruction
`i`, in processing order: the fall-through edge (absent past the end of
the sequence and for unconditional jumps) and then the jump edge (for
instructions whose opcode is in the jump tables), each carrying its stack
effect. -/
def edgeEffs (instrs : List SInstr) (i : Nat) : List (Nat × Int) :=
  (if i + 1 < instrs.length ∧ ¬ (instrs.getD i default).isUncondJump then
    [(i + 1, (instrs.getD i default).effFall)]
   else []) ++
  (if (instrs.getD i default).isJump then
    [((instrs.getD i default).jumpTo, (instrs.getD i default).effJump)]
   else [])

/-- `update_stacksize`: propose `max(old, depth[lasti] + effect)` for the
edge's target and enqueue the target when its depth grew and it is not
already pending. -/
def updStk (ms : List (WithBot Int)) (q : List Nat) (lasti : Nat)
    (e : Nat × Int) : List (WithBot Int) × List Nat :=
  let old := ms.getD e.1 ⊥
  let new := max old (ms.getD lasti ⊥ + ((e.2 : Int) : WithBot Int))
  let ms' := ms.set e.1 new
  let q' := if old ≠ new ∧ ¬ e.1 ∈ q then q ++ [e.1] else q
  (ms', q')

/-- The work-queue loop of `stacksize`, with explicit fuel standing for
the unbounded `while` loop: pop the head, relax both its out-edges, and
continue. -/
def stacksizeAux (instrs : List SInstr) :
    Nat → List (WithBot Int) → List Nat → Option (List (WithBot Int))
  | _, ms, [] => some ms
  | 0, _, _ :: _ => none
  | fuel + 1, ms, idx :: rest =>
    let s := (edgeEffs instrs idx).foldl
      (fun (p : List (WithBot Int) × List Nat) e => updStk p.1 p.2 idx e)
      (ms, rest)
    stacksizeAux instrs fuel s.1 s.2

/-- `stacksize`: seed the entry depth at 0 (all others at `-inf`), run
the work-queue to the fixed point, and return the maximum recorded
entry depth. -/
def stacksize (instrs : List SInstr) (fuel : Nat) : Option (WithBot Int) :=
  (stacksizeAux instrs fuel
      ((List.replicate instrs.length (⊥ : WithBot Int)).set 0
        ((0 : Int) : WithBot Int)) [0]).map
    (fun ms => ms.foldr max ⊥)

/-- An entry path: `Trail instrs j l s` holds when there is a path from
instruction 0 to instruction `j` whose earlier nodes are `l` (most recent
first) and whose stack effects sum to `s`. -/
inductive Trail (instrs : List SInstr) : Nat → List Nat → Int → Prop
  | nil : Trail instrs 0 [] 0
  | cons {i : Nat} {l : List Nat} {s : Int} {j : Nat} {e : Int} :
      Trail instrs i l s → (j, e) ∈ edgeEffs instrs i →
      Trail instrs j (i :: l) (s + e)

/-- `PathTo instrs j s`: some entry path reaches `j` with effect sum `s`
(the empty path reaches instruction 0 with sum 0). -/
def PathTo (instrs : List SInstr) (j : Nat) (s : Int) : Prop :=
  ∃ l, Trail instrs j l s

/-- A walk between arbitrary instructions along the analyzer's edges. -/
inductive WalkF (instrs : List SInstr) (a : Nat) : Nat → Int → Prop
  | refl : WalkF instrs a a 0
  | tail {i : Nat} {s : Int} {j : Nat} {e : Int} :
      WalkF instrs a i s → (j, e) ∈ edgeEffs instrs i →
      WalkF instrs a j (s + e)

/-- Acyclicity of the induced control-flow graph: no edge closes a walk
back to its own source. -/
def Acyclic (instrs : List SInstr) : Prop :=
  ∀ i j e, (j, e) ∈ edgeEffs instrs i → ∀ s, ¬ WalkF instrs j i s

/-- Resolved jump targets: every jump instruction's target index is in
range (in the source an out-of-range structural reference would make
`instructions.index` raise — a fatal construction error). -/
def WellFormedJumps (instrs : List SInstr) : Prop :=
  ∀ i < instrs.length, (instrs.getD i default).isJump = true →
    (instrs.getD i default).jumpTo < instrs.length

/-- Out-of-range instructions have no out-edges. -/
theorem edgeEffs_ge (instrs : List SInstr) (i : Nat)
    (h : instrs.length ≤ i) : edgeEffs instrs i = [] := by
  rw [edgeEffs, List.getD_eq_default _ _ (by omega : instrs.length ≤ i)]
  rw [if_neg (by rintro ⟨h1, _⟩; omega), if_neg (by decide)]
  rfl

/-- Any edge source is in range. -/
theorem edge_src_lt {instrs : List SInstr} {i j : Nat} {e : Int}
    (h : (j, e) ∈ edgeEffs instrs i) : i < instrs.length := by
  by_contra hge
  rw [edgeEffs_ge instrs i (by omega)] at h
  simp at h

/-- Any edge target is in range, given resolved jumps. -/
theorem edge_tgt_lt {instrs : List SInstr} (hwf : WellFormedJumps instrs)
    {i j : Nat} {e : Int} (h : (j, e) ∈ edgeEffs instrs i) :
    j < instrs.length := by
  have hi := edge_src_lt h
  simp only [edgeEffs, List.mem_append] at h
  rcases h with h | h
  · by_cases hc : i + 1 < instrs.length ∧ ¬ (instrs.getD i default).isUncondJump
    · rw [if_pos hc] at h
      simp only [List.mem_singleton, Prod.mk.injEq] at h
      omega
    · rw [if_neg hc] at h
      simp at h
  · by_cases hc : (instrs.getD i default).isJump
    · rw [if_pos hc] at h
      simp only [List.mem_singleton, Prod.mk.injEq] at h
      rw [h.1]
      exact hwf i hi hc
    · rw [if_neg (by simpa using hc)] at h
      simp at h

/-- No self-edges in an acyclic graph. -/
theorem no_self_edge {instrs : List SInstr} (hacyc : Acyclic instrs)
    {i : Nat} {e : Int} : ¬ (i, e) ∈ edgeEffs instrs i := by
  intro h
  exact hacyc i i e h 0 WalkF.refl

/-- The largest absolute stack effect of any instruction. -/
def maxEff (instrs : List SInstr) : Nat :=
  instrs.foldr (fun i m => max m (max i.effFall.natAbs i.effJump.natAbs)) 0

theorem maxEff_mem {instrs : List SInstr} {x : SInstr} (hx : x ∈ instrs) :
    x.effFall.natAbs ≤ maxEff instrs ∧ x.effJump.natAbs ≤ maxEff instrs := by
  induction instrs with
  | nil => simp at hx
  | cons a l ih =>
    simp only [maxEff, List.foldr_cons]
    rcases List.mem_cons.mp hx with rfl | hx
    · constructor <;> omega
    · obtain ⟨h1, h2⟩ := ih hx
      simp only [maxEff] at h1 h2
      constructor <;> omega

/-- Edge effects are bounded by `maxEff`. -/
theorem edge_eff_bound {instrs : List SInstr} {i j : Nat} {e : Int}
    (h : (j, e) ∈ edgeEffs instrs i) : e.natAbs ≤ maxEff instrs := by
  have hi := edge_src_lt h
  have hmem : instrs.getD i default ∈ instrs := by
    rw [List.getD_eq_getElem _ _ hi]
    exact List.getElem_mem _
  obtain ⟨h1, h2⟩ := maxEff_mem hmem
  simp only [edgeEffs, List.mem_append] at h
  rcases h with h | h
  · by_cases hc : i + 1 < instrs.length ∧ ¬ (instrs.getD i default).isUncondJump
    · rw [if_pos hc] at h
      simp only [List.mem_singleton, Prod.mk.injEq] at h
      rw [h.2]
      exact h1
    · rw [if_neg hc] at h
      simp at h
  · by_cases hc : (instrs.getD i default).isJump
    · rw [if_pos hc] at h
      simp only [List.mem_singleton, Prod.mk.injEq] at h
      rw [h.2]
      exact h2
    · rw [if_neg (by simpa using hc)] at h
      simp at h

theorem trail_nodes_lt {instrs : List SInstr} (hwf : WellFormedJumps instrs)
    (hne : 0 < instrs.length) :
    ∀ {j : Nat} {l : List Nat} {s : Int}, Trail instrs j l s →
      j < instrs.length ∧ ∀ x ∈ l, x < instrs.length := by
  intro j l s t
  induction t with
  | nil => exact ⟨hne, by simp⟩
  | cons _ he ih =>
    refine ⟨edge_tgt_lt hwf he, ?_⟩
    intro x hx
    rcases List.mem_cons.mp hx with rfl | hx
    · exact ih.1
    · exact ih.2 x hx

theorem trail_walk {instrs : List SInstr} :
    ∀ {j : Nat} {l : List Nat} {s : Int}, Trail instrs j l s →
      ∀ x ∈ (j :: l), ∃ s', WalkF instrs x j s' := by
  intro j l s t
  induction t with
  | nil =>
    intro x hx
    simp only [List.mem_singleton] at hx
    subst hx
    exact ⟨0, WalkF.refl⟩
  | cons _ he ih =>
    intro x hx
    rcases List.mem_cons.mp hx with rfl | hx
    · exact ⟨0, WalkF.refl⟩
    · obtain ⟨s', hw⟩ := ih x hx
      exact ⟨s' + _, WalkF.tail hw he⟩

theorem trail_nodup {instrs : List SInstr} (hacyc : Acyclic instrs) :
    ∀ {j : Nat} {l : List Nat} {s : Int}, Trail instrs j l s →
      (j :: l).Nodup := by
  intro j l s t
  induction t with
  | nil => simp
  | cons t' he ih =>
    rename_i i l' s' j' e
    rw [List.nodup_cons]
    refine ⟨?_, ih⟩
    intro hj
    obtain ⟨s'', hw⟩ := trail_walk t' j' hj
    exact hacyc i j' e he s'' hw

theorem trail_len_le {instrs : List SInstr} (hwf : WellFormedJumps instrs)
    (hne : 0 < instrs.length) (hacyc : Acyclic instrs)
    {j : Nat} {l : List Nat} {s : Int} (t : Trail instrs j l s) :
    (j :: l).length ≤ instrs.length := by
  have hnd : (j :: l).Nodup := trail_nodup hacyc t
  have hlt := trail_nodes_lt hwf hne t
  have hsub : (j :: l).toFinset ⊆ Finset.range instrs.length := by
    intro x hx
    rw [List.mem_toFinset] at hx
    rw [Finset.mem_range]
    rcases List.mem_cons.mp hx with rfl | hx
    · exact hlt.1
    · exact hlt.2 x hx
  have hcard := Finset.card_le_card hsub
  rw [Finset.card_range, List.toFinset_card_of_nodup hnd] at hcard
  exact hcard

theorem trail_sum_bound {instrs : List SInstr} :
    ∀ {j : Nat} {l : List Nat} {s : Int}, Trail instrs j l s →
      s.natAbs ≤ l.length * maxEff instrs := by
  intro j l s t
  induction t with
  | nil => simp
  | @cons i l' s' j' e _ he ih =>
    have hb := edge_eff_bound he
    calc (s' + e).natAbs ≤ s'.natAbs + e.natAbs := Int.natAbs_add_le _ _
      _ ≤ l'.length * maxEff instrs + maxEff instrs := by omega
      _ = (l'.length + 1) * maxEff instrs := by ring
      _ = (i :: l').length * maxEff instrs := by simp

theorem pathTo_bound {instrs : List SInstr} (hwf : WellFormedJumps instrs)
    (hne : 0 < instrs.length) (hacyc : Acyclic instrs)
    {j : Nat} {s : Int} (h : PathTo instrs j s) :
    -((instrs.length : Int) * (maxEff instrs : Int)) ≤ s ∧
      s ≤ (instrs.length : Int) * (maxEff instrs : Int) := by
  obtain ⟨l, t⟩ := h
  have h1 := trail_sum_bound t
  have h2 := trail_len_le hwf hne hacyc t
  simp only [List.length_cons] at h2
  have h3 : s.natAbs ≤ instrs.length * maxEff instrs := by
    calc s.natAbs ≤ l.length * maxEff instrs := h1
      _ ≤ instrs.length * maxEff instrs := by
        apply Nat.mul_le_mul_right
        omega
  have h4 : (s.natAbs : Int) ≤ (instrs.length : Int) * (maxEff instrs : Int) := by
    exact_mod_cast h3
  constructor <;> omega

/-- Extending a path along an edge. -/
theorem pathTo_step {instrs : List SInstr} {i j : Nat} {e s : Int}
    (hp : PathTo instrs i s) (he : (j, e) ∈ edgeEffs instrs i) :
    PathTo instrs j (s + e) := by
  obtain ⟨l, t⟩ := hp
  exact ⟨i :: l, Trail.cons t he⟩

/-- The termination potential of one depth cell: how much room it has
left to grow (cells hold path sums, bounded by `B` once the graph is
acyclic). -/
def potB (B : Int) (x : WithBot Int) : Nat :=
  (2 * B + 2 - (x.unbot' (-(B + 1)) + B + 1)).toNat

theorem potB_lt {B : Int} (hB : 0 ≤ B) {x : WithBot Int} {t : Int}
    (hxy : x < ((t : Int) : WithBot Int)) (ht1 : -B ≤ t) (ht2 : t ≤ B) :
    potB B ((t : Int) : WithBot Int) < potB B x := by
  induction x using WithBot.recBotCoe with
  | bot =>
    simp only [potB, WithBot.unbot'_bot, WithBot.unbot'_coe]
    omega
  | coe s =>
    have hst : s < t := by exact_mod_cast hxy
    simp only [potB, WithBot.unbot'_coe]
    omega

/-- The total termination potential of the depth table. -/
def PB (B : Int) (ms : List (WithBot Int)) : Nat :=
  (Finset.range ms.length).sum (fun j => potB B (ms.getD j ⊥))

theorem getD_set_self' (ms : List (WithBot Int)) (k : Nat)
    (h : k < ms.length) : ms.set k (ms.getD k ⊥) = ms := by
  apply List.ext_getElem?
  intro j
  by_cases hj : j = k
  · subst hj
    rw [List.getElem?_set_self (by omega)]
    rw [List.getD_eq_getElem _ _ h]
    rw [List.getElem?_eq_getElem h]
  · rw [List.getElem?_set_ne (by omega)]

theorem getD_set_eq' (ms : List (WithBot Int)) (k : Nat) (v : WithBot Int)
    (h : k < ms.length) : (ms.set k v).getD k ⊥ = v := by
  rw [List.getD_eq_getElem?_getD, List.getElem?_set_self (by omega)]
  rfl

theorem getD_set_ne' (ms : List (WithBot Int)) (k j : Nat) (v : WithBot Int)
    (h : j ≠ k) : (ms.set k v).getD j ⊥ = ms.getD j ⊥ := by
  rw [List.getD_eq_getElem?_getD, List.getElem?_set_ne (by omega),
    ← List.getD_eq_getElem?_getD]

theorem PB_set_lt {B : Int} (hB : 0 ≤ B) {ms : List (WithBot Int)} {k : Nat}
    (hk : k < ms.length) {t : Int}
    (hold : ms.getD k ⊥ < ((t : Int) : WithBot Int))
    (ht1 : -B ≤ t) (ht2 : t ≤ B) :
    PB B (ms.set k ((t : Int) : WithBot Int)) < PB B ms := by
  have hlen : (ms.set k ((t : Int) : WithBot Int)).length = ms.length :=
    List.length_set ms k _
  unfold PB
  rw [hlen]
  apply Finset.sum_lt_sum
  · intro j _
    by_cases hj : j = k
    · subst hj
      rw [getD_set_eq' ms j _ hk]
      exact le_of_lt (potB_lt hB hold ht1 ht2)
    · rw [getD_set_ne' ms k j _ hj]
  · refine ⟨k, Finset.mem_range.mpr hk, ?_⟩
    rw [getD_set_eq' ms k _ hk]
    exact potB_lt hB hold ht1 ht2

/-- All facts about one edge relaxation (`update_stacksize`) needed by
the loop invariant: lengths and soundness are preserved, cells only grow
and only the edge's target changes, the edge ends up relaxed, the queue
grows by at most the target (kept duplicate-free), and either nothing
changed or the termination potential strictly drops. -/
theorem updStk_step {instrs : List SInstr} {B : Int} (hB : 0 ≤ B)
    (hwf : WellFormedJumps instrs) (hacyc : Acyclic instrs)
    (hbound : ∀ j s, PathTo instrs j s → -B ≤ s ∧ s ≤ B)
    {ms : List (WithBot Int)} {q : List Nat} {idx : Nat} {e : Nat × Int}
    (he : e ∈ edgeEffs instrs idx)
    (hlen : ms.length = instrs.length)
    (hsound : ∀ j s, ms.getD j ⊥ = ((s : Int) : WithBot Int) →
      PathTo instrs j s)
    (hqlt : ∀ j ∈ q, j < instrs.length)
    (hqfin : ∀ j ∈ q, ms.getD j ⊥ ≠ ⊥)
    (hnd : q.Nodup)
    (hidxq : ¬ idx ∈ q) :
    (updStk ms q idx e).1.length = instrs.length ∧
    (∀ j s, (updStk ms q idx e).1.getD j ⊥ = ((s : Int) : WithBot Int) →
      PathTo instrs j s) ∧
    (∀ j, ms.getD j ⊥ ≤ (updStk ms q idx e).1.getD j ⊥) ∧
    (∀ j, j ≠ e.1 → (updStk ms q idx e).1.getD j ⊥ = ms.getD j ⊥) ∧
    (ms.getD idx ⊥ + ((e.2 : Int) : WithBot Int) ≤
      (updStk ms q idx e).1.getD e.1 ⊥) ∧
    ((updStk ms q idx e).2 = q ∨
      ((updStk ms q idx e).2 = q ++ [e.1] ∧ ¬ e.1 ∈ q)) ∧
    ((updStk ms q idx e).1 = ms ∧ (updStk ms q idx e).2 = q ∨
      PB B (updStk ms q idx e).1 < PB B ms) ∧
    (∀ j ∈ (updStk ms q idx e).2, j < instrs.length) ∧
    (∀ j ∈ (updStk ms q idx e).2, (updStk ms q idx e).1.getD j ⊥ ≠ ⊥) ∧
    (updStk ms q idx e).2.Nodup ∧
    ¬ idx ∈ (updStk ms q idx e).2 ∧
    (updStk ms q idx e).1.getD idx ⊥ = ms.getD idx ⊥ := by
  obtain ⟨k, e2⟩ := e
  have hk : k < instrs.length := edge_tgt_lt hwf he
  have hkms : k < ms.length := by omega
  have hki : k ≠ idx := by
    intro hkk
    subst hkk
    exact no_self_edge hacyc he
  set old := ms.getD k ⊥ with hold_def
  set v := ms.getD idx ⊥ + ((e2 : Int) : WithBot Int) with hv_def
  set new := max old v with hnew_def
  have hres : updStk ms q idx (k, e2) =
      (ms.set k new, if old ≠ new ∧ ¬ k ∈ q then q ++ [k] else q) := rfl
  by_cases hch : old = new
  · -- no growth: the table and queue are untouched
    have hms : ms.set k new = ms := by
      rw [← hch, hold_def]
      exact getD_set_self' ms k hkms
    have hq : (if old ≠ new ∧ ¬ k ∈ q then q ++ [k] else q) = q := by
      rw [if_neg]
      rintro ⟨h1, _⟩
      exact h1 hch
    rw [hres, hms, hq]
    have hrelax : ms.getD idx ⊥ + ((e2 : Int) : WithBot Int) ≤ ms.getD k ⊥ := by
      rw [hold_def] at hch
      calc ms.getD idx ⊥ + ((e2 : Int) : WithBot Int) = v := hv_def.symm
        _ ≤ new := le_max_right _ _
        _ = ms.getD k ⊥ := hch.symm
    exact ⟨hlen, hsound, fun j => le_refl _, fun j _ => rfl, hrelax,
      Or.inl rfl, Or.inl ⟨rfl, rfl⟩, hqlt, hqfin, hnd, hidxq, rfl⟩
  · -- the target's depth strictly grows
    have hov : old < v := by
      rcases lt_or_ge old v with h | h
      · exact h
      · exact absurd (by rw [hnew_def]; exact (max_eq_left h).symm) hch
    have hnv : new = v := by
      rw [hnew_def]
      exact max_eq_right (le_of_lt hov)
    have hvnb : v ≠ ⊥ := by
      intro hb
      rw [hb] at hov
      exact absurd hov (by simp)
    obtain ⟨t0, ht0⟩ : ∃ t0 : Int, ms.getD idx ⊥ = ((t0 : Int) : WithBot Int) := by
      cases hmi : ms.getD idx ⊥ using WithBot.recBotCoe with
      | bot =>
        exfalso
        apply hvnb
        rw [hv_def, hmi]
        rfl
      | coe t0 => exact ⟨t0, rfl⟩
    have hveq : v = (((t0 + e2 : Int)) : WithBot Int) := by
      rw [hv_def, ht0]
      exact_mod_cast (WithBot.coe_add t0 e2).symm
    have hpath : PathTo instrs k (t0 + e2) :=
      pathTo_step (hsound idx t0 ht0) he
    obtain ⟨hb1, hb2⟩ := hbound k (t0 + e2) hpath
    have hPB : PB B (ms.set k new) < PB B ms := by
      rw [hnv, hveq]
      refine PB_set_lt hB hkms ?_ hb1 hb2
      rw [← hveq]
      exact hov
    have hqcases : (if old ≠ new ∧ ¬ k ∈ q then q ++ [k] else q) = q ∨
        ((if old ≠ new ∧ ¬ k ∈ q then q ++ [k] else q) = q ++ [k] ∧ ¬ k ∈ q) := by
      by_cases hkq : k ∈ q
      · left
        rw [if_neg]
        rintro ⟨_, h2⟩
        exact h2 hkq
      · right
        rw [if_pos ⟨hch, hkq⟩]
        exact ⟨rfl, hkq⟩
    have hget_eq : (ms.set k new).getD k ⊥ = new := getD_set_eq' ms k new hkms
    have hget_ne : ∀ j, j ≠ k → (ms.set k new).getD j ⊥ = ms.getD j ⊥ :=
      fun j hj => getD_set_ne' ms k j new hj
    rw [hres]
    refine ⟨?_, ?_, ?_, ?_, ?_, ?_, ?_, ?_, ?_, ?_, ?_, ?_⟩
    · rw [List.length_set]; exact hlen
    · intro j s hj
      by_cases hjk : j = k
      · subst hjk
        rw [hget_eq, hnv, hveq] at hj
        have hse : t0 + e2 = s := by exact_mod_cast hj
        rw [← hse]
        exact hpath
      · rw [hget_ne j hjk] at hj
        exact hsound j s hj
    · intro j
      by_cases hjk : j = k
      · subst hjk
        rw [hget_eq, ← hold_def]
        exact le_max_left _ _
      · rw [hget_ne j hjk]
    · intro j hj
      exact hget_ne j hj
    · rw [hget_eq, hnv]
    · exact hqcases
    · right
      exact hPB
    · intro j hj
      rcases hqcases with hq | ⟨hq, _⟩ <;> rw [hq] at hj
      · exact hqlt j hj
      · rcases List.mem_append.mp hj with h | h
        · exact hqlt j h
        · simp only [List.mem_singleton] at h
          subst h
          exact hk
    · intro j hj
      rcases hqcases with hq | ⟨hq, _⟩ <;> rw [hq] at hj
      · by_cases hjk : j = k
        · subst hjk
          rw [hget_eq, hnv, hveq]
          exact WithBot.coe_ne_bot
        · rw [hget_ne j hjk]
          exact hqfin j hj
      · rcases List.mem_append.mp hj with h | h
        · by_cases hjk : j = k
          · subst hjk
            rw [hget_eq, hnv, hveq]
            exact WithBot.coe_ne_bot
          · rw [hget_ne j hjk]
            exact hqfin j h
        · simp only [List.mem_singleton] at h
          subst h
          rw [hget_eq, hnv, hveq]
          exact WithBot.coe_ne_bot
    · rcases hqcases with hq | ⟨hq, hknq⟩ <;> rw [hq]
      · exact hnd
      · rw [List.nodup_append]
        exact ⟨hnd, List.nodup_singleton k, by
          intro a ha hb
          simp only [List.mem_singleton] at hb
          subst hb
          exact hknq ha⟩
    · rcases hqcases with hq | ⟨hq, _⟩ <;> rw [hq]
      · exact hidxq
      · rw [List.mem_append]
        rintro (h | h)
        · exact hidxq h
        · simp only [List.mem_singleton] at h
          exact hki h.symm
    · exact hget_ne idx (fun h => hki h.symm)

/-- A cell that changed in one relaxation is pending afterwards. -/
theorem updStk_changed_mem {ms : List (WithBot Int)} {q : List Nat}
    {idx : Nat} {e : Nat × Int} (hk : e.1 < ms.length) :
    ∀ j, (updStk ms q idx e).1.getD j ⊥ ≠ ms.getD j ⊥ →
      j ∈ (updStk ms q idx e).2 := by
  intro j hj
  obtain ⟨k, e2⟩ := e
  simp only at hk
  simp only [updStk] at hj ⊢
  by_cases hjk : j = k
  · subst hjk
    by_cases hch : ms.getD j ⊥ =
        max (ms.getD j ⊥) (ms.getD idx ⊥ + ((e2 : Int) : WithBot Int))
    · exfalso
      apply hj
      rw [getD_set_eq' ms j _ hk, ← hch]
    · by_cases hjq : j ∈ q
      · rw [if_neg (by rintro ⟨_, h2⟩; exact h2 hjq)]
        exact hjq
      · rw [if_pos ⟨hch, hjq⟩]
        simp
  · exfalso
    apply hj
    exact getD_set_ne' ms k j _ hjk

/-- All facts about relaxing a batch of edges out of the popped
instruction `idx`. -/
theorem foldEdges_step {instrs : List SInstr} {B : Int} (hB : 0 ≤ B)
    (hwf : WellFormedJumps instrs) (hacyc : Acyclic instrs)
    (hbound : ∀ j s, PathTo instrs j s → -B ≤ s ∧ s ≤ B) (idx : Nat) :
    ∀ (edges : List (Nat × Int)), (∀ x ∈ edges, x ∈ edgeEffs instrs idx) →
    ∀ (ms : List (WithBot Int)) (q : List Nat),
      ms.length = instrs.length →
      (∀ j s, ms.getD j ⊥ = ((s : Int) : WithBot Int) → PathTo instrs j s) →
      (∀ j ∈ q, j < instrs.length) →
      (∀ j ∈ q, ms.getD j ⊥ ≠ ⊥) →
      q.Nodup →
      ¬ idx ∈ q →
      (edges.foldl (fun p e => updStk p.1 p.2 idx e) (ms, q)).1.length =
        instrs.length ∧
      (∀ j s, (edges.foldl (fun p e => updStk p.1 p.2 idx e) (ms, q)).1.getD j ⊥ =
        ((s : Int) : WithBot Int) → PathTo instrs j s) ∧
      (∀ j, ms.getD j ⊥ ≤
        (edges.foldl (fun p e => updStk p.1 p.2 idx e) (ms, q)).1.getD j ⊥) ∧
      (edges.foldl (fun p e => updStk p.1 p.2 idx e) (ms, q)).1.getD idx ⊥ =
        ms.getD idx ⊥ ∧
      (∀ x ∈ edges,
        (edges.foldl (fun p e => updStk p.1 p.2 idx e) (ms, q)).1.getD idx ⊥ +
          ((x.2 : Int) : WithBot Int) ≤
        (edges.foldl (fun p e => updStk p.1 p.2 idx e) (ms, q)).1.getD x.1 ⊥) ∧
      (∀ j ∈ (edges.foldl (fun p e => updStk p.1 p.2 idx e) (ms, q)).2,
        j < instrs.length) ∧
      (∀ j ∈ (edges.foldl (fun p e => updStk p.1 p.2 idx e) (ms, q)).2,
        (edges.foldl (fun p e => updStk p.1 p.2 idx e) (ms, q)).1.getD j ⊥ ≠ ⊥) ∧
      (edges.foldl (fun p e => updStk p.1 p.2 idx e) (ms, q)).2.Nodup ∧
      ¬ idx ∈ (edges.foldl (fun p e => updStk p.1 p.2 idx e) (ms, q)).2 ∧
      (∃ extra, (edges.foldl (fun p e => updStk p.1 p.2 idx e) (ms, q)).2 =
        q ++ extra) ∧
      ((edges.foldl (fun p e => updStk p.1 p.2 idx e) (ms, q)).1 = ms ∧
        (edges.foldl (fun p e => updStk p.1 p.2 idx e) (ms, q)).2 = q ∨
       PB B (edges.foldl (fun p e => updStk p.1 p.2 idx e) (ms, q)).1 < PB B ms) ∧
      (∀ j, (edges.foldl (fun p e => updStk p.1 p.2 idx e) (ms, q)).1.getD j ⊥ ≠
          ms.getD j ⊥ →
        j ∈ (edges.foldl (fun p e => updStk p.1 p.2 idx e) (ms, q)).2) := by
  intro edges
  induction edges with
  | nil =>
    intro _ ms q hlen hsound hqlt hqfin hnd hidxq
    refine ⟨hlen, hsound, fun j => le_refl _, rfl, by simp, hqlt, hqfin, hnd,
      hidxq, ⟨[], by simp⟩, Or.inl ⟨rfl, rfl⟩, ?_⟩
    intro j hj
    exact absurd rfl hj
  | cons e rest ih =>
    intro hedges ms q hlen hsound hqlt hqfin hnd hidxq
    have he : e ∈ edgeEffs instrs idx := hedges e (by simp)
    obtain ⟨u1, u2, u3, u4, u5, u6, u7, u8, u9, u10, u11, u12⟩ :=
      updStk_step hB hwf hacyc hbound he hlen hsound hqlt hqfin hnd hidxq
    have hrest : ∀ x ∈ rest, x ∈ edgeEffs instrs idx :=
      fun x hx => hedges x (by simp [hx])
    obtain ⟨f1, f2, f3, f4, f5, f6, f7, f8, f9, f10, f11, f12⟩ :=
      ih hrest (updStk ms q idx e).1 (updStk ms q idx e).2 u1 u2 u8 u9 u10 u11
    have hfold : (e :: rest).foldl (fun p e => updStk p.1 p.2 idx e) (ms, q) =
        rest.foldl (fun p e => updStk p.1 p.2 idx e)
          ((updStk ms q idx e).1, (updStk ms q idx e).2) := by
      simp [List.foldl_cons]
    rw [hfold]
    have hek : e.1 < ms.length := by
      have := edge_tgt_lt hwf he
      omega
    refine ⟨f1, f2, ?_, ?_, ?_, f6, f7, f8, f9, ?_, ?_, ?_⟩
    · intro j
      exact le_trans (u3 j) (f3 j)
    · rw [f4, u12]
    · intro x hx
      rcases List.mem_cons.mp hx with heq | hx
      · subst heq
        calc (rest.foldl (fun p e0 => updStk p.1 p.2 idx e0)
              ((updStk ms q idx x).1, (updStk ms q idx x).2)).1.getD idx ⊥ +
                ((x.2 : Int) : WithBot Int) =
              ms.getD idx ⊥ + ((x.2 : Int) : WithBot Int) := by rw [f4, u12]
          _ ≤ (updStk ms q idx x).1.getD x.1 ⊥ := u5
          _ ≤ _ := f3 x.1
      · exact f5 x hx
    · obtain ⟨ex2, hex2⟩ := f10
      rcases u6 with hq | ⟨hq, _⟩
      · exact ⟨ex2, by rw [hex2, hq]⟩
      · exact ⟨[e.1] ++ ex2, by rw [hex2, hq, List.append_assoc]⟩
    · rcases u7 with ⟨hmu, hqu⟩ | hPBu
      · rcases f11 with ⟨hmf, hqf⟩ | hPBf
        · left
          rw [hmf, hqf, hmu, hqu]
          exact ⟨rfl, rfl⟩
        · right
          exact lt_of_lt_of_eq hPBf (by rw [hmu])
      · rcases f11 with ⟨hmf, _⟩ | hPBf
        · right
          rw [hmf]
          exact hPBu
        · right
          exact lt_trans hPBf hPBu
    · intro j hj
      by_cases hmid : (updStk ms q idx e).1.getD j ⊥ = ms.getD j ⊥
      · rw [← hmid] at hj
        exact f12 j hj
      · have hjm : j ∈ (updStk ms q idx e).2 := updStk_changed_mem hek j hmid
        obtain ⟨ex2, hex2⟩ := f10
        rw [hex2]
        exact List.mem_append.mpr (Or.inl hjm)

/-- The work-queue loop invariant: the table has one cell per
instruction, every finite cell is witnessed by an entry path, pending
indices are in range with finite depth and no duplicates, the entry cell
is at least 0, and every settled (finite, not pending) cell has all its
out-edges relaxed. -/
structure SInv (instrs : List SInstr) (ms : List (WithBot Int))
    (q : List Nat) : Prop where
  len : ms.length = instrs.length
  sound : ∀ j s, ms.getD j ⊥ = ((s : Int) : WithBot Int) → PathTo instrs j s
  qlt : ∀ j ∈ q, j < instrs.length
  qfin : ∀ j ∈ q, ms.getD j ⊥ ≠ ⊥
  nodup : q.Nodup
  zero : (((0 : Int)) : WithBot Int) ≤ ms.getD 0 ⊥
  relaxed : ∀ j, ms.getD j ⊥ ≠ ⊥ → ¬ j ∈ q →
    ∀ x ∈ edgeEffs instrs j,
      ms.getD j ⊥ + ((x.2 : Int) : WithBot Int) ≤ ms.getD x.1 ⊥

theorem nodup_lt_length_le {q : List Nat} {n : Nat} (hnd : q.Nodup)
    (hlt : ∀ j ∈ q, j < n) : q.length ≤ n := by
  have hsub : q.toFinset ⊆ Finset.range n := by
    intro x hx
    rw [List.mem_toFinset] at hx
    rw [Finset.mem_range]
    exact hlt x hx
  have := Finset.card_le_card hsub
  rw [Finset.card_range, List.toFinset_card_of_nodup hnd] at this
  exact this

/-- One iteration of the work-queue loop preserves the invariant and
strictly decreases the termination measure. -/
theorem loop_iter {instrs : List SInstr} {B : Int} (hB : 0 ≤ B)
    (hwf : WellFormedJumps instrs) (hacyc : Acyclic instrs)
    (hbound : ∀ j s, PathTo instrs j s → -B ≤ s ∧ s ≤ B)
    {ms : List (WithBot Int)} {idx : Nat} {rest : List Nat}
    (hinv : SInv instrs ms (idx :: rest)) :
    SInv instrs
      ((edgeEffs instrs idx).foldl (fun p e => updStk p.1 p.2 idx e)
        (ms, rest)).1
      ((edgeEffs instrs idx).foldl (fun p e => updStk p.1 p.2 idx e)
        (ms, rest)).2 ∧
    PB B ((edgeEffs instrs idx).foldl (fun p e => updStk p.1 p.2 idx e)
        (ms, rest)).1 * (instrs.length + 1) +
      ((edgeEffs instrs idx).foldl (fun p e => updStk p.1 p.2 idx e)
        (ms, rest)).2.length <
    PB B ms * (instrs.length + 1) + (idx :: rest).length := by
  have hqlt' : ∀ j ∈ rest, j < instrs.length :=
    fun j hj => hinv.qlt j (by simp [hj])
  have hqfin' : ∀ j ∈ rest, ms.getD j ⊥ ≠ ⊥ :=
    fun j hj => hinv.qfin j (by simp [hj])
  have hnd' : rest.Nodup := (List.nodup_cons.mp hinv.nodup).2
  have hidxr : ¬ idx ∈ rest := (List.nodup_cons.mp hinv.nodup).1
  obtain ⟨f1, f2, f3, f4, f5, f6, f7, f8, f9, f10, f11, f12⟩ :=
    foldEdges_step hB hwf hacyc hbound idx (edgeEffs instrs idx)
      (fun x hx => hx) ms rest hinv.len hinv.sound hqlt' hqfin' hnd' hidxr
  constructor
  · refine ⟨f1, f2, f6, f7, f8, le_trans hinv.zero (f3 0), ?_⟩
    intro j hjfin hjq x hx
    by_cases hji : j = idx
    · subst hji
      exact f5 x hx
    · have hjrest : ¬ j ∈ rest := by
        obtain ⟨extra, hex⟩ := f10
        rw [hex] at hjq
        intro hmem
        exact hjq (List.mem_append.mpr (Or.inl hmem))
      have hunch : ((edgeEffs instrs idx).foldl
          (fun p e => updStk p.1 p.2 idx e) (ms, rest)).1.getD j ⊥ =
          ms.getD j ⊥ := by
        by_contra hch
        exact hjq (f12 j hch)
      have hold : ms.getD j ⊥ ≠ ⊥ := by
        rw [← hunch]
        exact hjfin
      have hrel := hinv.relaxed j hold
        (by
          rw [List.mem_cons]
          rintro (h | h)
          · exact hji h
          · exact hjrest h) x hx
      rw [hunch]
      exact le_trans hrel (f3 x.1)
  · rcases f11 with ⟨hmeq, hqeq⟩ | hPBlt
    · rw [hmeq, hqeq]
      simp only [List.length_cons]
      omega
    · have hql : ((edgeEffs instrs idx).foldl
          (fun p e => updStk p.1 p.2 idx e) (ms, rest)).2.length ≤
          instrs.length :=
        nodup_lt_length_le f8 f6
      have hstep : PB B ((edgeEffs instrs idx).foldl
          (fun p e => updStk p.1 p.2 idx e) (ms, rest)).1 + 1 ≤ PB B ms :=
        hPBlt
      calc PB B ((edgeEffs instrs idx).foldl
            (fun p e => updStk p.1 p.2 idx e) (ms, rest)).1 *
            (instrs.length + 1) +
          ((edgeEffs instrs idx).foldl
            (fun p e => updStk p.1 p.2 idx e) (ms, rest)).2.length
          < (PB B ((edgeEffs instrs idx).foldl
              (fun p e => updStk p.1 p.2 idx e) (ms, rest)).1 + 1) *
            (instrs.length + 1) := by
            rw [Nat.add_mul, Nat.one_mul]
            omega
        _ ≤ PB B ms * (instrs.length + 1) :=
            Nat.mul_le_mul_right _ hstep
        _ ≤ PB B ms * (instrs.length + 1) + (idx :: rest).length :=
            Nat.le_add_right _ _

/-- With sufficient fuel the work-queue loop reaches the empty queue,
maintaining the invariant. -/
theorem stacksizeAux_term {instrs : List SInstr} {B : Int} (hB : 0 ≤ B)
    (hwf : WellFormedJumps instrs) (hacyc : Acyclic instrs)
    (hbound : ∀ j s, PathTo instrs j s → -B ≤ s ∧ s ≤ B) :
    ∀ (m : Nat) (ms : List (WithBot Int)) (q : List Nat),
      SInv instrs ms q →
      PB B ms * (instrs.length + 1) + q.length < m →
      ∃ ms', stacksizeAux instrs m ms q = some ms' ∧ SInv instrs ms' [] := by
  intro m
  induction m with
  | zero => intro ms q _ h; omega
  | succ m ih =>
    intro ms q hinv hm
    match q with
    | [] => exact ⟨ms, rfl, hinv⟩
    | idx :: rest =>
      obtain ⟨hinv', hdec⟩ := loop_iter hB hwf hacyc hbound hinv
      have hunf : stacksizeAux instrs (m + 1) ms (idx :: rest) =
          stacksizeAux instrs m
            ((edgeEffs instrs idx).foldl (fun p e => updStk p.1 p.2 idx e)
              (ms, rest)).1
            ((edgeEffs instrs idx).foldl (fun p e => updStk p.1 p.2 idx e)
              (ms, rest)).2 := rfl
      rw [hunf]
      exact ih _ _ hinv' (by omega)

/-- At the fixed point every entry path's sum is dominated by its
endpoint's recorded depth. -/
theorem final_complete {instrs : List SInstr} {ms' : List (WithBot Int)}
    (hfin : SInv instrs ms' []) :
    ∀ {j : Nat} {l : List Nat} {s : Int}, Trail instrs j l s →
      ((s : Int) : WithBot Int) ≤ ms'.getD j ⊥ := by
  intro j l s t
  induction t with
  | nil => exact hfin.zero
  | @cons i l' s' j' e t' he ih =>
    have hfi : ms'.getD i ⊥ ≠ ⊥ := by
      intro hb
      rw [hb] at ih
      exact absurd ih (by simp)
    have hrel := hfin.relaxed i hfi (by simp) (j', e) he
    calc (((s' + e : Int)) : WithBot Int)
        = ((s' : Int) : WithBot Int) + ((e : Int) : WithBot Int) := by
          exact_mod_cast WithBot.coe_add s' e
      _ ≤ ms'.getD i ⊥ + ((e : Int) : WithBot Int) := add_le_add_right ih _
      _ ≤ ms'.getD j' ⊥ := hrel

theorem foldr_max_ge (l : List (WithBot Int)) :
    ∀ x ∈ l, x ≤ l.foldr max ⊥ := by
  induction l with
  | nil => simp
  | cons a t ih =>
    intro x hx
    rcases List.mem_cons.mp hx with rfl | hx
    · exact le_max_left _ _
    · exact le_trans (ih x hx) (le_max_right _ _)

theorem foldr_max_attained (l : List (WithBot Int)) :
    l.foldr max ⊥ ≠ ⊥ →
      ∃ k, k < l.length ∧ l.getD k ⊥ = l.foldr max ⊥ := by
  induction l with
  | nil => intro h; simp at h
  | cons a t ih =>
    intro h
    simp only [List.foldr_cons] at h ⊢
    rcases le_total (t.foldr max ⊥) a with hle | hle
    · refine ⟨0, by simp, ?_⟩
      simp [max_eq_left hle]
    · have hmax : max a (t.foldr max ⊥) = t.foldr max ⊥ := max_eq_right hle
      rw [hmax] at h ⊢
      obtain ⟨k, hk, hget⟩ := ih h
      exact ⟨k + 1, by simpa using hk, by simpa using hget⟩

/-- C1.  For a non-empty acyclic instruction sequence with resolved jump
targets, the work-queue loop of `stacksize` terminates (some fuel
suffices, standing for the unbounded `while`) and returns exactly the
maximum, over all instructions reachable from the entry, of the maximal
prefix-sum of per-edge stack effects along entry paths: the result
dominates every entry path's sum and is itself attained by one — since
unreachable instructions keep depth `⊥` (negative infinity) and a
`⊥` cell can never supply the attained maximum, they are excluded. -/
theorem stacksize_fixed_point (instrs : List SInstr) (hne : instrs ≠ [])
    (hwf : WellFormedJumps instrs) (hacyc : Acyclic instrs) :
    ∃ (fuel : Nat) (r : WithBot Int),
      stacksize instrs fuel = some r ∧
      (∀ j s, PathTo instrs j s → ((s : Int) : WithBot Int) ≤ r) ∧
      (∃ j s, PathTo instrs j s ∧ r = ((s : Int) : WithBot Int)) := by
  have hn : 0 < instrs.length := List.length_pos.mpr hne
  set B : Int := (instrs.length : Int) * (maxEff instrs : Int) with hBdef
  have hB : 0 ≤ B := by positivity
  have hbound : ∀ j s, PathTo instrs j s → -B ≤ s ∧ s ≤ B :=
    fun j s h => pathTo_bound hwf hn hacyc h
  set ms0 : List (WithBot Int) :=
    (List.replicate instrs.length (⊥ : WithBot Int)).set 0
      (((0 : Int)) : WithBot Int) with hms0
  have hms0len : ms0.length = instrs.length := by
    rw [hms0, List.length_set, List.length_replicate]
  have hrep : (List.replicate instrs.length (⊥ : WithBot Int)).length =
      instrs.length := List.length_replicate _ _
  have hms00 : ms0.getD 0 ⊥ = (((0 : Int)) : WithBot Int) := by
    rw [hms0]
    exact getD_set_eq' _ 0 _ (by omega)
  have hms0j : ∀ j, j ≠ 0 → ms0.getD j ⊥ = ⊥ := by
    intro j hj
    rw [hms0, getD_set_ne' _ 0 j _ hj]
    by_cases hjn : j < instrs.length
    · rw [List.getD_eq_getElem _ _ (by omega)]
      simp
    · exact List.getD_eq_default _ _ (by omega)
  have hinv0 : SInv instrs ms0 [0] := by
    refine ⟨hms0len, ?_, ?_, ?_, by simp, ?_, ?_⟩
    · intro j s hj
      by_cases hj0 : j = 0
      · subst hj0
        rw [hms00] at hj
        have : (0 : Int) = s := by exact_mod_cast hj
        rw [← this]
        exact ⟨[], Trail.nil⟩
      · rw [hms0j j hj0] at hj
        exact absurd hj.symm WithBot.coe_ne_bot
    · intro j hj
      simp only [List.mem_singleton] at hj
      subst hj
      exact hn
    · intro j hj
      simp only [List.mem_singleton] at hj
      subst hj
      rw [hms00]
      exact WithBot.coe_ne_bot
    · rw [hms00]
    · intro j hjfin hjq
      exfalso
      apply hjq
      simp only [List.mem_singleton]
      by_contra hj0
      exact hjfin (hms0j j hj0)
  obtain ⟨ms', hrun, hfin⟩ := stacksizeAux_term hB hwf hacyc hbound
    (PB B ms0 * (instrs.length + 1) + 2) ms0 [0] hinv0 (by simp)
  refine ⟨PB B ms0 * (instrs.length + 1) + 2, ms'.foldr max ⊥, ?_, ?_, ?_⟩
  · unfold stacksize
    rw [← hms0, hrun]
    rfl
  · intro j s hp
    obtain ⟨l, t⟩ := hp
    have h1 := final_complete hfin t
    have hj : j < instrs.length := (trail_nodes_lt hwf hn t).1
    have hjm : ms'.getD j ⊥ ∈ ms' := by
      rw [List.getD_eq_getElem _ _ (by rw [hfin.len]; exact hj)]
      exact List.getElem_mem _
    exact le_trans h1 (foldr_max_ge ms' _ hjm)
  · have hz : ((0 : Int) : WithBot Int) ≤ ms'.foldr max ⊥ := by
      have h0 := hfin.zero
      have h0m : ms'.getD 0 ⊥ ∈ ms' := by
        rw [List.getD_eq_getElem _ _ (by rw [hfin.len]; omega)]
        exact List.getElem_mem _
      exact le_trans h0 (foldr_max_ge ms' _ h0m)
    have hnb : ms'.foldr max ⊥ ≠ ⊥ := by
      intro hb
      rw [hb] at hz
      exact absurd hz (by simp)
    obtain ⟨k, hk, hget⟩ := foldr_max_attained ms' hnb
    obtain ⟨s, hs⟩ : ∃ s : Int, ms'.foldr max ⊥ = ((s : Int) : WithBot Int) := by
      cases hc : ms'.foldr max ⊥ using WithBot.recBotCoe with
      | bot => exact absurd hc hnb
      | coe s => exact ⟨s, rfl⟩
    refine ⟨k, s, ?_, hs⟩
    apply hfin.sound k s
    rw [hget, hs]

/-- Witness for `stacksize_fixed_point`: the one-instruction sequence
(a lone `RETURN_VALUE` with fall effect −1) is acyclic, and the
analyzer's result is the maximal entry-path sum. -/
theorem stacksize_fixed_point_witness :
    ∃ (fuel : Nat) (r : WithBot Int),
      stacksize [(⟨-1, 0, false, false, 0⟩ : SInstr)] fuel = some r ∧
      (∀ j s, PathTo [(⟨-1, 0, false, false, 0⟩ : SInstr)] j s →
        ((s : Int) : WithBot Int) ≤ r) ∧
      (∃ j s, PathTo [(⟨-1, 0, false, false, 0⟩ : SInstr)] j s ∧
        r = ((s : Int) : WithBot Int)) := by
  apply stacksize_fixed_point
  · decide
  · unfold WellFormedJumps
    decide
  · intro i j e hmem s hw
    rcases Nat.lt_or_ge i 1 with hi | hi
    · have hi0 : i = 0 := by omega
      subst hi0
      simp [edgeEffs] at hmem
    · rw [edgeEffs_ge _ _ (by simpa using hi)] at hmem
      simp at hmem

end Sot
